import Mathlib

/-! # The Nachos directory table (`filesys/directory.cc`)

A shallow embedding of `Directory`: the constructor, `FetchFrom`, `WriteBack`,
`FindIndex`, `Find`, `Add`, `Remove` and `List`, followed by theorems about
them.

Conventions of the embedding.

* A `char` is a natural number and a C string is the list of its bytes; the
  terminating NUL is implicit, so `strncmp` and `strncpy` reading past the end
  of the list read `0`.  The `%s` of `List` reads the memory of the table from
  the `name` array of an entry up to the first NUL, also past the end of that
  array; only a read past the end of the table is `Fault.outOfBounds`.
* `raw.table` is the list of the entries of the allocated array and
  `raw.tableSize` is kept as a field of its own, as in `RawDirectory`.  Every
  array access is checked: an access outside the array is `Fault.outOfBounds`,
  a failed `ASSERT` is `Fault.assertion`.
* `new DirectoryEntry[n]` does not initialise its entries.  The contents of a
  newly allocated array are an explicit argument `heap : Nat → DirectoryEntry`
  (slot `i` of the new array starts as `heap i`).
* `FILE_NAME_MAX_LEN`, `NUM_DIR_ENTRYS_SECTOR` and the sizes and byte images
  of `unsigned` and `DirectoryEntry` come from headers that are not part of
  the sources; they are parameters.
* Counts and indices are natural numbers.  The conversions between `unsigned`
  and `int` are the identity on them, which is what the machine does for
  tables of fewer than `2^31` entries.
* Pointer arguments (`name`, `file`) are values and never null, so the
  `ASSERT(... != nullptr)` of the source always hold.
* `fileSystem->setDirSize` (under `FILESYS`) and `DEBUG` do not touch the
  directory and are left out.
-/

namespace Nachos

/-! ## C strings -/

/-- The C library's `strncmp`: compare at most `n` bytes, stopping after a NUL;
the result is the difference of the first pair of bytes that differ. -/
def strncmp : List Nat → List Nat → Nat → Int
  | _, _, 0 => 0
  | s1, s2, n + 1 =>
    let c1 := s1.headD 0
    let c2 := s2.headD 0
    if c1 ≠ c2 then (c1 : Int) - (c2 : Int)
    else if c1 = 0 then 0
    else strncmp s1.tail s2.tail n

/-- The C library's `strncpy`: write exactly `n` bytes to `dst`, the bytes of
`src` up to its NUL and then NUL padding; bytes of `dst` from `n` on are kept. -/
def strncpy : List Nat → List Nat → Nat → List Nat
  | dst, _, 0 => dst
  | dst, src, n + 1 =>
    let c := src.headD 0
    c :: strncpy dst.tail (if c = 0 then [] else src.tail) n

/-- The bytes of a string literal, without the terminating NUL. -/
def cstr (s : String) : List Nat := s.toList.map Char.toNat

/-- What `strncmp (·) (·) n` looks at: the bytes before the first NUL, at most
`n` of them. -/
def nameKey (n : Nat) (s : List Nat) : List Nat :=
  (s.takeWhile (fun c => c != 0)).take n

/-! ## Data model -/

/-- One slot of the table: `DirectoryEntry`.  `name` is the `char` array of
the entry, `sector` the location of the file header: the `int` that `Add`
stores and `Find` returns. -/
structure DirectoryEntry where
  inUse : Bool
  name : List Nat
  sector : Int
deriving DecidableEq

/-- The table and its size: `RawDirectory`. -/
structure RawDirectory where
  table : List DirectoryEntry
  tableSize : Nat
deriving DecidableEq

/-- Ways in which a call does not return normally. -/
inductive Fault where
  | assertion
  | outOfBounds
deriving DecidableEq

/-- The outcome of a call: a fault or a value. -/
inductive Outcome (α : Type) where
  | fault (f : Fault)
  | ok (a : α)
deriving DecidableEq

/-- The array is allocated with `tableSize` entries. -/
def RawDirectory.WF (d : RawDirectory) : Prop := d.table.length = d.tableSize

instance (d : RawDirectory) : Decidable d.WF := by
  unfold RawDirectory.WF; infer_instance

/-- The array `new DirectoryEntry[n]`: `n` entries with the contents the
allocator happens to hand out. -/
def newArray (heap : Nat → DirectoryEntry) (n : Nat) : List DirectoryEntry :=
  (List.range n).map heap

/-- The test of the loop of `FindIndex`:
`raw.table[i].inUse && !strncmp(raw.table[i].name, name, FILE_NAME_MAX_LEN)`. -/
def DirectoryEntry.hit (FILE_NAME_MAX_LEN : Nat) (name : List Nat) (e : DirectoryEntry) : Bool :=
  e.inUse && (strncmp e.name name FILE_NAME_MAX_LEN == 0)

/-- The three assignments with which `Add` fills a slot: `inUse = true`,
`strncpy(raw.table[i].name, name, FILE_NAME_MAX_LEN)`, `sector = newSector`. -/
def DirectoryEntry.fill (FILE_NAME_MAX_LEN : Nat) (name : List Nat) (newSector : Int)
    (e : DirectoryEntry) : DirectoryEntry :=
  { inUse := true, name := strncpy e.name name FILE_NAME_MAX_LEN, sector := newSector }

/-! ## Operations -/

/-- The loop of the constructor, `k` iterations left, at index `i`. -/
def Directory.loop : Nat → Nat → List DirectoryEntry → Outcome (List DirectoryEntry)
  | 0, _, t => .ok t
  | k + 1, i, t =>
    match t[i]? with
    | none => .fault .outOfBounds
    | some e => Directory.loop k (i + 1) (t.set i { e with inUse := false })

/-- The constructor `Directory::Directory(size, init)`.  Without `init` no
array is allocated (`raw.table` is left for `FetchFrom` to set). -/
def Directory (size : Nat) (init : Bool) (heap : Nat → DirectoryEntry) : Outcome RawDirectory :=
  if size = 0 then .fault .assertion
  else if init then
    match Directory.loop size 0 (newArray heap size) with
    | .fault f => .fault f
    | .ok t => .ok { table := t, tableSize := size }
  else .ok { table := [], tableSize := size }

/-- The loop of `FindIndex`, `k` iterations left, at index `i`. -/
def FindIndex.loop (FILE_NAME_MAX_LEN : Nat) (name : List Nat) :
    Nat → Nat → List DirectoryEntry → Outcome Int
  | 0, _, _ => .ok (-1)
  | k + 1, i, t =>
    match t[i]? with
    | none => .fault .outOfBounds
    | some e =>
      if e.hit FILE_NAME_MAX_LEN name then .ok (i : Int)
      else FindIndex.loop FILE_NAME_MAX_LEN name k (i + 1) t

/-- `Directory::FindIndex(name)`. -/
def FindIndex (FILE_NAME_MAX_LEN : Nat) (d : RawDirectory) (name : List Nat) : Outcome Int :=
  FindIndex.loop FILE_NAME_MAX_LEN name d.tableSize 0 d.table

/-- `Directory::Find(name)`. -/
def Find (FILE_NAME_MAX_LEN : Nat) (d : RawDirectory) (name : List Nat) : Outcome Int :=
  match FindIndex FILE_NAME_MAX_LEN d name with
  | .fault f => .fault f
  | .ok i =>
    if i ≠ -1 then
      match d.table[i.toNat]? with
      | none => .fault .outOfBounds
      | some e => .ok e.sector
    else .ok (-1)

/-- The first loop of `Add`, `k` iterations left, at index `i`: the table with
the first free slot filled, or `none` when the loop ends without one. -/
def Add.loop (FILE_NAME_MAX_LEN : Nat) (name : List Nat) (newSector : Int) :
    Nat → Nat → List DirectoryEntry → Outcome (Option (List DirectoryEntry))
  | 0, _, _ => .ok none
  | k + 1, i, t =>
    match t[i]? with
    | none => .fault .outOfBounds
    | some e =>
      if !e.inUse then .ok (some (t.set i (e.fill FILE_NAME_MAX_LEN name newSector)))
      else Add.loop FILE_NAME_MAX_LEN name newSector k (i + 1) t

/-- The call `memcpy(dst, src, n * sizeof(DirectoryEntry))`: the first `n` entries of
`dst` become those of `src`. -/
def memcpy (dst src : List DirectoryEntry) (n : Nat) : Outcome (List DirectoryEntry) :=
  if n ≤ src.length ∧ n ≤ dst.length then .ok (src.take n ++ dst.drop n)
  else .fault .outOfBounds

/-- `Directory::Add(name, newSector)`: the returned flag and the directory
afterwards.  `heap` is the content of the array a growth allocates. -/
def Add (FILE_NAME_MAX_LEN NUM_DIR_ENTRYS_SECTOR : Nat) (d : RawDirectory) (name : List Nat)
    (newSector : Int) (heap : Nat → DirectoryEntry) : Outcome (Bool × RawDirectory) :=
  match FindIndex FILE_NAME_MAX_LEN d name with
  | .fault f => .fault f
  | .ok r =>
    if r ≠ -1 then .ok (false, d)
    else
      match Add.loop FILE_NAME_MAX_LEN name newSector d.tableSize 0 d.table with
      | .fault f => .fault f
      | .ok (some t) => .ok (true, { d with table := t })
      | .ok none =>
        match memcpy (newArray heap (d.tableSize + NUM_DIR_ENTRYS_SECTOR)) d.table d.tableSize with
        | .fault f => .fault f
        | .ok newTable =>
          match newTable[d.tableSize]? with
          | none => .fault .outOfBounds
          | some e =>
            .ok (true,
              { table := newTable.set d.tableSize (e.fill FILE_NAME_MAX_LEN name newSector),
                tableSize := d.tableSize + NUM_DIR_ENTRYS_SECTOR })

/-- `Directory::Remove(name)`: the returned flag and the directory afterwards. -/
def Remove (FILE_NAME_MAX_LEN : Nat) (d : RawDirectory) (name : List Nat) :
    Outcome (Bool × RawDirectory) :=
  match FindIndex FILE_NAME_MAX_LEN d name with
  | .fault f => .fault f
  | .ok i =>
    if i = -1 then .ok (false, d)
    else
      match d.table[i.toNat]? with
      | none => .fault .outOfBounds
      | some e => .ok (true, { d with table := d.table.set i.toNat { e with inUse := false } })

/-! ## Sequences of calls -/

/-- One call that changes the directory. -/
inductive Op where
  | add (name : List Nat) (newSector : Int) (heap : Nat → DirectoryEntry)
  | remove (name : List Nat)

/-- The directory after one call. -/
def Op.apply (FILE_NAME_MAX_LEN NUM_DIR_ENTRYS_SECTOR : Nat) (d : RawDirectory) :
    Op → Outcome RawDirectory
  | .add name newSector heap =>
    match Add FILE_NAME_MAX_LEN NUM_DIR_ENTRYS_SECTOR d name newSector heap with
    | .fault f => .fault f
    | .ok r => .ok r.2
  | .remove name =>
    match Remove FILE_NAME_MAX_LEN d name with
    | .fault f => .fault f
    | .ok r => .ok r.2

/-- The directory after a sequence of calls. -/
def run (FILE_NAME_MAX_LEN NUM_DIR_ENTRYS_SECTOR : Nat) :
    RawDirectory → List Op → Outcome RawDirectory
  | d, [] => .ok d
  | d, op :: ops =>
    match op.apply FILE_NAME_MAX_LEN NUM_DIR_ENTRYS_SECTOR d with
    | .fault f => .fault f
    | .ok d' => run FILE_NAME_MAX_LEN NUM_DIR_ENTRYS_SECTOR d' ops

/-- The call is an `Add`. -/
def Op.isAdd : Op → Bool
  | .add _ _ _ => true
  | .remove _ => false

/-! ## The backing store -/

/-- Modelled from the spec: the Backing Store, "offset-addressed read/write of
a byte range" (`OpenFile`, whose source is not part of the repository files
at hand).  A store is the list of its bytes. -/
structure OpenFile where
  bytes : List Nat
deriving DecidableEq

/-- Modelled from the spec: `readAt(buffer, length, offset)`.  The result is
the new content of the `numBytes` bytes of the buffer: the bytes the store has
from `position` on, and the old content of the buffer where the store ends. -/
def OpenFile.ReadAt (file : OpenFile) (into : List Nat) (numBytes position : Nat) : List Nat :=
  let got := (file.bytes.drop position).take numBytes
  got ++ (into.take numBytes).drop got.length

/-- Modelled from the spec: `writeAt(buffer, length, offset)`.  The bytes are
written over those of the store from `position` on; the store keeps its
length, so bytes that would fall behind its end are not written. -/
def OpenFile.WriteAt (file : OpenFile) (src : List Nat) (numBytes position : Nat) : OpenFile :=
  if file.bytes.length ≤ position then file
  else
    let put := (src.take numBytes).take (file.bytes.length - position)
    { bytes := file.bytes.take position ++ put ++ file.bytes.drop (position + put.length) }

/-- The sizes and byte images of `unsigned` and of `DirectoryEntry`, which the
casts to `char *` in `FetchFrom` and `WriteBack` expose. -/
structure Layout where
  sizeofUnsigned : Nat
  sizeofEntry : Nat
  unsignedBytes : Nat → List Nat
  unsignedOfBytes : List Nat → Nat
  entryBytes : DirectoryEntry → List Nat
  entryOfBytes : List Nat → DirectoryEntry

/-- The layout reads back the count `n` from its `sizeofUnsigned` bytes. -/
def Layout.CountOK (L : Layout) (n : Nat) : Prop :=
  (L.unsignedBytes n).length = L.sizeofUnsigned ∧ L.unsignedOfBytes (L.unsignedBytes n) = n

/-- The layout reads back the entry `e` from its `sizeofEntry` bytes. -/
def Layout.EntryOK (L : Layout) (e : DirectoryEntry) : Prop :=
  (L.entryBytes e).length = L.sizeofEntry ∧ L.entryOfBytes (L.entryBytes e) = e

instance (L : Layout) (n : Nat) : Decidable (L.CountOK n) := by
  unfold Layout.CountOK; infer_instance

instance (L : Layout) (e : DirectoryEntry) : Decidable (L.EntryOK e) := by
  unfold Layout.EntryOK; infer_instance

/-- The memory of an array of entries, as bytes. -/
def Layout.image (L : Layout) (t : List DirectoryEntry) : List Nat :=
  t.flatMap L.entryBytes

/-- Cut `n` records of `w` bytes from a byte list. -/
def chunks (w : Nat) : Nat → List Nat → List (List Nat)
  | 0, _ => []
  | n + 1, bs => bs.take w :: chunks w n (bs.drop w)

/-- `Directory::FetchFrom(file)`.  `sizeJunk` is the value the local variable
`size` holds before the first `ReadAt`, `heap` the content of the new array
before the second. -/
def FetchFrom (L : Layout) (_d : RawDirectory) (file : OpenFile) (sizeJunk : Nat)
    (heap : Nat → DirectoryEntry) : Outcome RawDirectory :=
  let size := L.unsignedOfBytes (file.ReadAt (L.unsignedBytes sizeJunk) L.sizeofUnsigned 0)
  let table := newArray heap size
  let bytes := file.ReadAt (L.image table) (size * L.sizeofEntry) L.sizeofEntry
  .ok { table := (chunks L.sizeofEntry size bytes).map L.entryOfBytes, tableSize := size }

/-- `Directory::WriteBack(file)`: the store afterwards. -/
def WriteBack (L : Layout) (d : RawDirectory) (file : OpenFile) : Outcome OpenFile :=
  if d.table.length < d.tableSize then .fault .outOfBounds
  else
    let file1 := file.WriteAt (L.unsignedBytes d.tableSize) L.sizeofUnsigned 0
    .ok (file1.WriteAt (L.image (d.table.take d.tableSize)) (d.tableSize * L.sizeofEntry)
      L.sizeofEntry)

/-- The bytes that `printf("%s", p)` prints when `p` points at offset `start`
of the memory `mem`: those from `start` up to the first NUL, wherever in `mem`
it is.  A read that reaches the end of `mem` without a NUL is out of bounds. -/
def printString (mem : List Nat) (start : Nat) : Outcome (List Nat) :=
  if 0 ∈ mem.drop start then .ok ((mem.drop start).takeWhile (fun c => c != 0))
  else .fault .outOfBounds

/-- The loop of `List`, `k` iterations left, at index `i`, `out` being the
lines printed so far.  `raw.table[i].name` is at offset
`i * sizeof(DirectoryEntry) + nameOffset` of the memory of the array, where
`nameOffset` is the offset of `name` in `DirectoryEntry`. -/
def Directory.List.loop (L : Layout) (nameOffset : Nat) :
    Nat → Nat → List DirectoryEntry → List (List Nat) → Outcome (List (List Nat))
  | 0, _, _, out => .ok out
  | k + 1, i, t, out =>
    match t[i]? with
    | none => .fault .outOfBounds
    | some e =>
      if e.inUse then
        match printString (L.image t) (i * L.sizeofEntry + nameOffset) with
        | .fault f => .fault f
        | .ok line => Directory.List.loop L nameOffset k (i + 1) t (out ++ [line])
      else Directory.List.loop L nameOffset k (i + 1) t out

/-- `Directory::List()`: the lines printed, in order, each without its newline. -/
def Directory.List (L : Layout) (nameOffset : Nat) (d : RawDirectory) :
    Outcome (List (List Nat)) :=
  Directory.List.loop L nameOffset d.tableSize 0 d.table []

/-! ## Vocabulary of the statements -/

/-- No entry of the table is hit by `name`: the name is not in the directory. -/
def Absent (N : Nat) (t : List DirectoryEntry) (name : List Nat) : Prop :=
  ∀ e ∈ t, e.hit N name = false

/-- Slot `i` holds `e`, the first entry of the table hit by `name`. -/
def FirstHit (N : Nat) (t : List DirectoryEntry) (name : List Nat) (i : Nat)
    (e : DirectoryEntry) : Prop :=
  t[i]? = some e ∧ e.hit N name = true ∧
    ∀ j e', j < i → t[j]? = some e' → e'.hit N name = false

/-- Slot `i` holds `e`, the first free entry of the table. -/
def FirstFree (t : List DirectoryEntry) (i : Nat) (e : DirectoryEntry) : Prop :=
  t[i]? = some e ∧ e.inUse = false ∧ ∀ j e', j < i → t[j]? = some e' → e'.inUse = true

/-- The table after a growth: the old entries, the new entry written over the
first new slot, and the other new slots as allocated. -/
def grownTable (N NUM : Nat) (d : RawDirectory) (name : List Nat) (s : Int)
    (heap : Nat → DirectoryEntry) : List DirectoryEntry :=
  (d.table.take d.tableSize ++ (newArray heap (d.tableSize + NUM)).drop d.tableSize).set
    d.tableSize ((heap d.tableSize).fill N name s)

/-- Any two distinct in-use entries have names that differ within the first
`N` bytes. -/
def InUseDistinct (N : Nat) (t : List DirectoryEntry) : Prop :=
  ∀ (i j : Nat) (ei ej : DirectoryEntry), t[i]? = some ei → t[j]? = some ej → i ≠ j →
    ei.inUse = true → ej.inUse = true → nameKey N ei.name ≠ nameKey N ej.name

/-- The name of the entry as a C string: the bytes of its array before the
first NUL. -/
def DirectoryEntry.cname (e : DirectoryEntry) : List Nat :=
  e.name.takeWhile (fun c => c != 0)

/-- The bytes of the entry hold its `name` array at offset `nameOffset`. -/
def Layout.NameAt (L : Layout) (nameOffset : Nat) (e : DirectoryEntry) : Prop :=
  ∃ pre post, L.entryBytes e = pre ++ e.name ++ post ∧ pre.length = nameOffset

/-- The name that the call is about. -/
def Op.name : Op → List Nat
  | .add name _ _ => name
  | .remove name => name

/-- The memory a growth allocates holds no entry marked in use. -/
def Op.heapFree : Op → Prop
  | .add _ _ heap => ∀ i, (heap i).inUse = false
  | .remove _ => True

/-! ## Sample data -/

/-- The value of an outcome, or `a` after a fault. -/
def Outcome.getD {α : Type} (o : Outcome α) (a : α) : α :=
  match o with
  | .ok v => v
  | .fault _ => a

/-- An allocator handing out zeroed memory, for names of 9 bytes. -/
def zeroHeap : Nat → DirectoryEntry :=
  fun _ => { inUse := false, name := List.replicate 10 0, sector := 0 }

/-- An allocator handing out memory that held in-use entries named `b` before
it was released. -/
def staleHeap : Nat → DirectoryEntry :=
  fun _ => { inUse := true, name := strncpy (List.replicate 10 0) (cstr "b") 9, sector := 99 }

/-- The directory `Directory(4, true)`. -/
def empty4 : RawDirectory := (Directory 4 true zeroHeap).getD ⟨[], 0⟩

/-- The directory `empty4` after `Add("foo.txt", 10)`. -/
def dirFoo : RawDirectory :=
  ((Add 9 8 empty4 (cstr "foo.txt") 10 zeroHeap).getD (false, empty4)).2

/-- The directory `dirFoo` after `Add("bar.txt", 20)`. -/
def dirFooBar : RawDirectory :=
  ((Add 9 8 dirFoo (cstr "bar.txt") 20 zeroHeap).getD (false, dirFoo)).2

/-- The directory `empty4` after `Add("a", 5)`. -/
def dirA : RawDirectory :=
  ((Add 9 8 empty4 (cstr "a") 5 zeroHeap).getD (false, empty4)).2

/-- The directory `Directory(1, true)`. -/
def empty1 : RawDirectory := (Directory 1 true zeroHeap).getD ⟨[], 0⟩

/-- The directory `empty1` after `Add("a", 1)`: every slot is in use. -/
def full1 : RawDirectory :=
  ((Add 9 8 empty1 (cstr "a") 1 zeroHeap).getD (false, empty1)).2

/-- The calls `Add("foo.txt", 10)` and `Add("bar.txt", 20)`. -/
def addFooBar : List Op :=
  [.add (cstr "foo.txt") 10 zeroHeap, .add (cstr "bar.txt") 20 zeroHeap]

/-- The calls `Add("a", 1)` and `Add("b", 2)`, the second one growing a table
of one entry into memory that held in-use entries named `b`. -/
def addAB : List Op :=
  [.add (cstr "a") 1 zeroHeap, .add (cstr "b") 2 staleHeap]

/-- Nine calls of `Add`, of the names `1` to `9`. -/
def addNine : List Op :=
  (List.range 9).map (fun i => Op.add [49 + i] (i : Int) zeroHeap)

/-- The directory `Directory(8, true)` after the calls `addNine`. -/
def dirNine : RawDirectory :=
  (run 9 8 ((Directory 8 true zeroHeap).getD empty1) addNine).getD empty1

/-- The directory `empty1` after the calls `addAB`. -/
def dirAB : RawDirectory := (run 9 8 empty1 addAB).getD empty1

/-- An allocator handing out memory filled with the byte `0x5A`. -/
def heap5A : Nat → DirectoryEntry :=
  fun _ => { inUse := true, name := List.replicate 10 90, sector := 1515870810 }

/-- The directory `Directory(1, true)` built in memory filled with `0x5A`. -/
def empty5A : RawDirectory := (Directory 1 true heap5A).getD ⟨[], 0⟩

/-- The directory `empty5A` after `Add("123456789", 7)`. -/
def dirLong : RawDirectory :=
  ((Add 9 8 empty5A (cstr "123456789") 7 zeroHeap).getD (false, empty5A)).2

/-- A store of 96 zero bytes. -/
def store96 : OpenFile := { bytes := List.replicate 96 0 }

/-- Four bytes of an `unsigned`, lowest first. -/
def le32 (n : Nat) : List Nat :=
  [n % 256, n / 256 % 256, n / 65536 % 256, n / 16777216 % 256]

/-- The `unsigned` of four bytes, lowest first. -/
def ofLe32 (bs : List Nat) : Nat :=
  bs.getD 0 0 + 256 * bs.getD 1 0 + 65536 * bs.getD 2 0 + 16777216 * bs.getD 3 0

/-- A layout for `FILE_NAME_MAX_LEN = 9`: records of 16 bytes (flag, 10 bytes
of name, one byte of padding, 4 bytes of sector). -/
def layout16 : Layout where
  sizeofUnsigned := 4
  sizeofEntry := 16
  unsignedBytes := le32
  unsignedOfBytes := ofLe32
  entryBytes := fun e =>
    (if e.inUse then 1 else 0) :: ((e.name ++ List.replicate 10 0).take 10 ++ 0 ::
      le32 (e.sector % 4294967296).toNat)
  entryOfBytes := fun bs =>
    { inUse := bs.getD 0 0 != 0,
      name := (bs.drop 1).take 10,
      sector :=
        if ofLe32 (bs.drop 12) < 2147483648 then (ofLe32 (bs.drop 12) : Int)
        else (ofLe32 (bs.drop 12) : Int) - 4294967296 }

/-- The layout `layout16` in memory whose padding byte is `0x5A`. -/
def layout16Z : Layout :=
  { layout16 with
    entryBytes := fun e =>
      (if e.inUse then 1 else 0) :: ((e.name ++ List.replicate 10 0).take 10 ++ 90 ::
        le32 (e.sector % 4294967296).toNat) }

/-! ## Lemmas on C strings -/

theorem strncmp_eq_zero_iff (n : Nat) (a b : List Nat) :
    strncmp a b n = 0 ↔ nameKey n a = nameKey n b := by
  induction n generalizing a b with
  | zero => simp [strncmp, nameKey]
  | succ n ih =>
    have ih' := ih a.tail b.tail
    unfold nameKey at ih' ⊢
    cases a with
    | nil =>
      cases b with
      | nil => simp [strncmp]
      | cons y ys =>
        by_cases hy : y = 0
        · subst hy; simp [strncmp]
        · have hy' : (0 : Nat) ≠ y := fun h => hy h.symm
          simp [strncmp, hy, hy']
    | cons x xs =>
      cases b with
      | nil =>
        by_cases hx : x = 0
        · subst hx; simp [strncmp]
        · simp [strncmp, hx]
      | cons y ys =>
        by_cases hxy : x = y
        · subst hxy
          by_cases hx : x = 0
          · subst hx; simp [strncmp]
          · simpa [strncmp, hx] using ih'
        · by_cases hx : x = 0
          · subst hx
            have hy : y ≠ 0 := fun h => hxy h.symm
            simp [strncmp, hxy, hy]
          · by_cases hy : y = 0
            · subst hy
              simp [strncmp, hx]
            · simp [strncmp, hxy, hx, hy]
              omega

theorem nameKey_strncpy (n : Nat) (dst src : List Nat) :
    nameKey n (strncpy dst src n) = nameKey n src := by
  induction n generalizing dst src with
  | zero => simp [nameKey]
  | succ n ih =>
    have ih' := ih dst.tail src.tail
    unfold nameKey at ih' ⊢
    cases src with
    | nil => simp [strncpy]
    | cons x xs =>
      by_cases hx : x = 0
      · subst hx; simp [strncpy]
      · simpa [strncpy, hx] using ih'

/-- The test of `FindIndex` in terms of the compared bytes. -/
theorem hit_iff (N : Nat) (name : List Nat) (e : DirectoryEntry) :
    e.hit N name = true ↔ e.inUse = true ∧ nameKey N e.name = nameKey N name := by
  simp [DirectoryEntry.hit, strncmp_eq_zero_iff]

theorem hit_fill (N : Nat) (name : List Nat) (s : Int) (e : DirectoryEntry) :
    (e.fill N name s).hit N name = true := by
  rw [hit_iff]; simp [DirectoryEntry.fill, nameKey_strncpy]

/-- Two names with the same compared bytes hit the same entries. -/
theorem hit_congr (N : Nat) (a b : List Nat) (h : nameKey N a = nameKey N b)
    (e : DirectoryEntry) : e.hit N a = e.hit N b := by
  rw [Bool.eq_iff_iff, hit_iff, hit_iff, h]

/-! ## The loops -/

theorem findIndexLoop_spec (N : Nat) (name : List Nat) (t : List DirectoryEntry) :
    ∀ k i, i + k = t.length →
      (∀ j e', j < i → t[j]? = some e' → e'.hit N name = false) →
      (FindIndex.loop N name k i t = .ok (-1) ∧ Absent N t name) ∨
      (∃ j e, FirstHit N t name j e ∧ FindIndex.loop N name k i t = .ok (j : Int)) := by
  intro k
  induction k with
  | zero =>
    intro i hlen hinv
    left
    refine ⟨rfl, ?_⟩
    intro e he
    obtain ⟨j, hj, hje⟩ := List.getElem_of_mem he
    exact hinv j e (by omega) (by rw [List.getElem?_eq_getElem hj, hje])
  | succ k ih =>
    intro i hlen hinv
    have hi : i < t.length := by omega
    have hget : t[i]? = some t[i] := List.getElem?_eq_getElem hi
    by_cases hh : (t[i]).hit N name = true
    · right
      refine ⟨i, t[i], ⟨hget, hh, hinv⟩, ?_⟩
      simp [FindIndex.loop, hget, hh]
    · have hstep : FindIndex.loop N name (k + 1) i t = FindIndex.loop N name k (i + 1) t := by
        simp [FindIndex.loop, hget, hh]
      rw [hstep]
      apply ih (i + 1) (by omega)
      intro j e' hj hje
      by_cases hji : j = i
      · subst hji
        rw [hget] at hje
        cases hje
        simpa using hh
      · exact hinv j e' (by omega) hje

theorem addLoop_spec (N : Nat) (name : List Nat) (s : Int) (t : List DirectoryEntry) :
    ∀ k i, i + k = t.length →
      (∀ j e', j < i → t[j]? = some e' → e'.inUse = true) →
      (Add.loop N name s k i t = .ok none ∧ ∀ e ∈ t, e.inUse = true) ∨
      (∃ j e, FirstFree t j e ∧ Add.loop N name s k i t = .ok (some (t.set j (e.fill N name s)))) := by
  intro k
  induction k with
  | zero =>
    intro i hlen hinv
    left
    refine ⟨rfl, ?_⟩
    intro e he
    obtain ⟨j, hj, hje⟩ := List.getElem_of_mem he
    exact hinv j e (by omega) (by rw [List.getElem?_eq_getElem hj, hje])
  | succ k ih =>
    intro i hlen hinv
    have hi : i < t.length := by omega
    have hget : t[i]? = some t[i] := List.getElem?_eq_getElem hi
    by_cases hh : (t[i]).inUse = true
    · have hstep : Add.loop N name s (k + 1) i t = Add.loop N name s k (i + 1) t := by
        simp [Add.loop, hget, hh]
      rw [hstep]
      apply ih (i + 1) (by omega)
      intro j e' hj hje
      by_cases hji : j = i
      · subst hji
        rw [hget] at hje
        cases hje
        exact hh
      · exact hinv j e' (by omega) hje
    · right
      have hf : (t[i]).inUse = false := by simpa using hh
      refine ⟨i, t[i], ⟨hget, hf, hinv⟩, ?_⟩
      simp [Add.loop, hget, hf]

theorem directoryLoop_spec : ∀ k i (t : List DirectoryEntry), i + k = t.length →
    ∃ t', Directory.loop k i t = .ok t' ∧ t'.length = t.length ∧
      (∀ j e, j < i → t[j]? = some e → t'[j]? = some e) ∧
      (∀ j e, i ≤ j → t[j]? = some e → t'[j]? = some { e with inUse := false }) := by
  intro k
  induction k with
  | zero =>
    intro i t hlen
    refine ⟨t, rfl, rfl, fun j e _ h => h, ?_⟩
    intro j e hj hje
    have : j < t.length := (List.getElem?_eq_some_iff.mp hje).1
    omega
  | succ k ih =>
    intro i t hlen
    have hi : i < t.length := by omega
    have hget : t[i]? = some t[i] := List.getElem?_eq_getElem hi
    obtain ⟨t', h1, h2, h3, h4⟩ := ih (i + 1) (t.set i { t[i] with inUse := false })
      (by simp; omega)
    refine ⟨t', ?_, ?_, ?_, ?_⟩
    · simp [Directory.loop, hget, h1]
    · simpa using h2
    · intro j e hj hje
      apply h3 j e (by omega)
      rw [List.getElem?_set_ne (by omega)]
      exact hje
    · intro j e hj hje
      by_cases hji : j = i
      · subst hji
        rw [hget] at hje
        cases hje
        apply h3 j _ (by omega)
        simp [hi]
      · apply h4 j e (by omega)
        rw [List.getElem?_set_ne (fun h => hji h.symm)]
        exact hje

/-! ## The operations on a well-formed directory -/

theorem mem_of_get {t : List DirectoryEntry} {i : Nat} {e : DirectoryEntry}
    (h : t[i]? = some e) : e ∈ t := by
  obtain ⟨hi, he⟩ := List.getElem?_eq_some_iff.mp h
  exact he ▸ List.getElem_mem hi

theorem FirstHit.not_absent {N : Nat} {t : List DirectoryEntry} {name : List Nat} {i : Nat}
    {e : DirectoryEntry} (h : FirstHit N t name i e) : ¬ Absent N t name := by
  intro ha
  have := ha e (mem_of_get h.1)
  rw [h.2.1] at this
  cases this

theorem FirstHit.lt {N : Nat} {t : List DirectoryEntry} {name : List Nat} {i : Nat}
    {e : DirectoryEntry} (h : FirstHit N t name i e) : i < t.length :=
  (List.getElem?_eq_some_iff.mp h.1).1

/-- `FindIndex` on a well-formed directory: `-1` and no entry hit, or the index of
the first entry hit. -/
theorem findIndex_cases (N : Nat) (d : RawDirectory) (name : List Nat) (hwf : d.WF) :
    (FindIndex N d name = .ok (-1) ∧ Absent N d.table name) ∨
    (∃ j e, FirstHit N d.table name j e ∧ FindIndex N d name = .ok (j : Int)) := by
  unfold FindIndex
  exact findIndexLoop_spec N name d.table d.tableSize 0 (by rw [hwf]; omega)
    (fun j e' hj _ => absurd hj (Nat.not_lt_zero j))

theorem findIndex_of_absent (N : Nat) (d : RawDirectory) (name : List Nat) (hwf : d.WF)
    (h : Absent N d.table name) : FindIndex N d name = .ok (-1) := by
  rcases findIndex_cases N d name hwf with h1 | ⟨j, e, hj, _⟩
  · exact h1.1
  · exact absurd h hj.not_absent

theorem findIndex_of_firstHit (N : Nat) (d : RawDirectory) (name : List Nat) (hwf : d.WF)
    {i : Nat} {e : DirectoryEntry} (h : FirstHit N d.table name i e) :
    FindIndex N d name = .ok (i : Int) := by
  rcases findIndex_cases N d name hwf with h1 | ⟨j, e', hj, hr⟩
  · exact absurd h1.2 h.not_absent
  · have hij : j = i := by
      rcases Nat.lt_trichotomy j i with hlt | heq | hgt
      · have := h.2.2 j e' hlt hj.1
        rw [hj.2.1] at this
        cases this
      · exact heq
      · have := hj.2.2 i e hgt h.1
        rw [h.2.1] at this
        cases this
    rw [hr, hij]

theorem findIndex_eq_neg_one_iff (N : Nat) (d : RawDirectory) (name : List Nat) (hwf : d.WF) :
    FindIndex N d name = .ok (-1) ↔ Absent N d.table name := by
  constructor
  · intro h
    rcases findIndex_cases N d name hwf with h1 | ⟨j, e, _, hr⟩
    · exact h1.2
    · rw [hr] at h
      injection h with h
      omega
  · exact findIndex_of_absent N d name hwf

theorem find_of_absent (N : Nat) (d : RawDirectory) (name : List Nat) (hwf : d.WF)
    (h : Absent N d.table name) : Find N d name = .ok (-1) := by
  simp [Find, findIndex_of_absent N d name hwf h]

theorem find_of_firstHit (N : Nat) (d : RawDirectory) (name : List Nat) (hwf : d.WF)
    {i : Nat} {e : DirectoryEntry} (h : FirstHit N d.table name i e) :
    Find N d name = .ok e.sector := by
  have hne : ((i : Int) = -1) = False := by
    apply propext; constructor
    · intro h; omega
    · exact False.elim
  simp [Find, findIndex_of_firstHit N d name hwf h, hne, h.1]

theorem add_of_firstHit (N NUM : Nat) (d : RawDirectory) (name : List Nat) (s : Int)
    (heap : Nat → DirectoryEntry) (hwf : d.WF) {i : Nat} {e : DirectoryEntry}
    (h : FirstHit N d.table name i e) : Add N NUM d name s heap = .ok (false, d) := by
  have hne : ((i : Int) = -1) = False := by
    apply propext; constructor
    · intro h; omega
    · exact False.elim
  simp [Add, findIndex_of_firstHit N d name hwf h, hne]

theorem addLoop_of_firstFree (N : Nat) (d : RawDirectory) (name : List Nat) (s : Int)
    (hwf : d.WF) {i : Nat} {e : DirectoryEntry} (h : FirstFree d.table i e) :
    Add.loop N name s d.tableSize 0 d.table = .ok (some (d.table.set i (e.fill N name s))) := by
  rcases addLoop_spec N name s d.table d.tableSize 0 (by rw [hwf]; omega)
    (fun j e' hj _ => absurd hj (Nat.not_lt_zero j)) with h1 | ⟨j, e', hj, hr⟩
  · have := h1.2 e (mem_of_get h.1)
    rw [h.2.1] at this
    cases this
  · have hij : j = i := by
      rcases Nat.lt_trichotomy j i with hlt | heq | hgt
      · have := h.2.2 j e' hlt hj.1
        rw [hj.2.1] at this
        cases this
      · exact heq
      · have := hj.2.2 i e hgt h.1
        rw [h.2.1] at this
        cases this
    subst hij
    have : e' = e := by
      have := hj.1
      rw [h.1] at this
      injection this with this
      exact this.symm
    rw [hr, this]

theorem addLoop_of_full (N : Nat) (d : RawDirectory) (name : List Nat) (s : Int)
    (hwf : d.WF) (h : ∀ e ∈ d.table, e.inUse = true) :
    Add.loop N name s d.tableSize 0 d.table = .ok none := by
  rcases addLoop_spec N name s d.table d.tableSize 0 (by rw [hwf]; omega)
    (fun j e' hj _ => absurd hj (Nat.not_lt_zero j)) with h1 | ⟨j, e', hj, _⟩
  · exact h1.1
  · have := h e' (mem_of_get hj.1)
    rw [hj.2.1] at this
    cases this

/-- Either some slot is the first free one or every slot is in use. -/
theorem firstFree_or_full (t : List DirectoryEntry) :
    (∃ i e, FirstFree t i e) ∨ ∀ e ∈ t, e.inUse = true := by
  rcases addLoop_spec 0 [] 0 t t.length 0 (by omega)
    (fun j e' hj _ => absurd hj (Nat.not_lt_zero j)) with h1 | ⟨j, e', hj, _⟩
  · exact Or.inr h1.2
  · exact Or.inl ⟨j, e', hj⟩

theorem add_of_firstFree (N NUM : Nat) (d : RawDirectory) (name : List Nat) (s : Int)
    (heap : Nat → DirectoryEntry) (hwf : d.WF) (ha : Absent N d.table name)
    {i : Nat} {e : DirectoryEntry} (h : FirstFree d.table i e) :
    Add N NUM d name s heap =
      .ok (true, { d with table := d.table.set i (e.fill N name s) }) := by
  simp [Add, findIndex_of_absent N d name hwf ha, addLoop_of_firstFree N d name s hwf h]

theorem add_of_full (N NUM : Nat) (d : RawDirectory) (name : List Nat) (s : Int)
    (heap : Nat → DirectoryEntry) (hwf : d.WF) (hNUM : 0 < NUM) (ha : Absent N d.table name)
    (h : ∀ e ∈ d.table, e.inUse = true) :
    Add N NUM d name s heap =
      .ok (true, { table := grownTable N NUM d name s heap, tableSize := d.tableSize + NUM }) := by
  have hlen : d.table.length = d.tableSize := hwf
  have hmem : d.tableSize ≤ d.table.length ∧
      d.tableSize ≤ (newArray heap (d.tableSize + NUM)).length := by
    simp [newArray, hlen]
  have hget : (d.table.take d.tableSize ++
      (newArray heap (d.tableSize + NUM)).drop d.tableSize)[d.tableSize]? =
      some (heap d.tableSize) := by
    rw [List.getElem?_append_right (by simp [hlen])]
    simp [hlen, newArray, List.getElem?_drop, hNUM]
  simp [Add, findIndex_of_absent N d name hwf ha, addLoop_of_full N d name s hwf h, memcpy,
    hmem, hget, grownTable]

theorem grownTable_length (N NUM : Nat) (d : RawDirectory) (name : List Nat) (s : Int)
    (heap : Nat → DirectoryEntry) (hwf : d.WF) :
    (grownTable N NUM d name s heap).length = d.tableSize + NUM := by
  have hlen : d.table.length = d.tableSize := hwf
  simp [grownTable, newArray, hlen]

theorem grownTable_old (N NUM : Nat) (d : RawDirectory) (name : List Nat) (s : Int)
    (heap : Nat → DirectoryEntry) (hwf : d.WF) (i : Nat) (hi : i < d.tableSize) :
    (grownTable N NUM d name s heap)[i]? = d.table[i]? := by
  have hlen : d.table.length = d.tableSize := hwf
  unfold grownTable
  rw [List.getElem?_set_ne (by omega), List.getElem?_append_left (by simp [hlen]; omega)]
  rw [← hlen, List.take_length]

theorem grownTable_new (N NUM : Nat) (d : RawDirectory) (name : List Nat) (s : Int)
    (heap : Nat → DirectoryEntry) (hwf : d.WF) (hNUM : 0 < NUM) :
    (grownTable N NUM d name s heap)[d.tableSize]? = some ((heap d.tableSize).fill N name s) := by
  have hlen : d.table.length = d.tableSize := hwf
  unfold grownTable
  rw [List.getElem?_set_self]
  simp [newArray, hlen]
  omega

theorem grownTable_rest (N NUM : Nat) (d : RawDirectory) (name : List Nat) (s : Int)
    (heap : Nat → DirectoryEntry) (hwf : d.WF) (i : Nat) (h1 : d.tableSize < i)
    (h2 : i < d.tableSize + NUM) :
    (grownTable N NUM d name s heap)[i]? = some (heap i) := by
  have hlen : d.table.length = d.tableSize := hwf
  unfold grownTable
  rw [List.getElem?_set_ne (by omega), List.getElem?_append_right (by simp [hlen]; omega)]
  simp only [hlen, newArray, List.getElem?_drop, List.length_take, List.getElem?_map,
    Nat.min_self]
  have hi : d.tableSize + (i - d.tableSize) = i := by omega
  rw [hi, List.getElem?_range h2]
  rfl

theorem absent_iff (N : Nat) (t : List DirectoryEntry) (name : List Nat) :
    Absent N t name ↔ ∀ e ∈ t, e.inUse = true → nameKey N e.name ≠ nameKey N name := by
  constructor
  · intro h e he hu hk
    have := h e he
    rw [(hit_iff N name e).mpr ⟨hu, hk⟩] at this
    cases this
  · intro h e he
    cases hh : e.hit N name with
    | false => rfl
    | true =>
      have := (hit_iff N name e).mp hh
      exact absurd this.2 (h e he this.1)

theorem not_absent_iff (N : Nat) (t : List DirectoryEntry) (name : List Nat) :
    ¬ Absent N t name ↔ ∃ e ∈ t, e.inUse = true ∧ nameKey N e.name = nameKey N name := by
  rw [absent_iff]
  constructor
  · intro h
    by_contra hc
    apply h
    intro e he hu hk
    exact hc ⟨e, he, hu, hk⟩
  · rintro ⟨e, he, hu, hk⟩ h
    exact h e he hu hk

/-- A name that is not absent has a first entry that it hits. -/
theorem firstHit_of_not_absent (N : Nat) (d : RawDirectory) (name : List Nat) (hwf : d.WF)
    (h : ¬ Absent N d.table name) : ∃ j e, FirstHit N d.table name j e := by
  rcases findIndex_cases N d name hwf with h1 | ⟨j, e, hj, _⟩
  · exact absurd h1.2 h
  · exact ⟨j, e, hj⟩

/-- The first hit only depends on the entries up to it. -/
theorem FirstHit.of_prefix {N : Nat} {t t' : List DirectoryEntry} {name : List Nat} {i : Nat}
    {e : DirectoryEntry} (h : FirstHit N t name i e) (hpre : ∀ j, j ≤ i → t'[j]? = t[j]?) :
    FirstHit N t' name i e := by
  refine ⟨by rw [hpre i (Nat.le_refl i)]; exact h.1, h.2.1, ?_⟩
  intro j e' hj hje
  rw [hpre j (by omega)] at hje
  exact h.2.2 j e' hj hje

theorem int_natCast_ne_neg_one (i : Nat) : ((i : Int) = -1) = False := by
  apply propext
  constructor
  · intro h; omega
  · exact False.elim

theorem remove_of_absent (N : Nat) (d : RawDirectory) (name : List Nat) (hwf : d.WF)
    (h : Absent N d.table name) : Remove N d name = .ok (false, d) := by
  simp [Remove, findIndex_of_absent N d name hwf h]

theorem remove_of_firstHit (N : Nat) (d : RawDirectory) (name : List Nat) (hwf : d.WF)
    {i : Nat} {e : DirectoryEntry} (h : FirstHit N d.table name i e) :
    Remove N d name =
      .ok (true, { d with table := d.table.set i { e with inUse := false } }) := by
  simp [Remove, findIndex_of_firstHit N d name hwf h, int_natCast_ne_neg_one, h.1]

theorem add_of_full_zero (N : Nat) (d : RawDirectory) (name : List Nat) (s : Int)
    (heap : Nat → DirectoryEntry) (hwf : d.WF) (ha : Absent N d.table name)
    (h : ∀ e ∈ d.table, e.inUse = true) :
    Add N 0 d name s heap = .fault .outOfBounds := by
  have hlen : d.table.length = d.tableSize := hwf
  have hmem : d.tableSize ≤ d.table.length ∧ d.tableSize ≤ (newArray heap d.tableSize).length := by
    simp [newArray, hlen]
  have hget : (d.table.take d.tableSize ++
      (newArray heap d.tableSize).drop d.tableSize)[d.tableSize]? = none := by
    simp [newArray, hlen]
  simp [Add, findIndex_of_absent N d name hwf ha, addLoop_of_full N d name s hwf h, memcpy,
    hmem, hget]

/-- The three ways in which `Add` returns. -/
theorem add_cases (N NUM : Nat) (d : RawDirectory) (name : List Nat) (s : Int)
    (heap : Nat → DirectoryEntry) (hwf : d.WF) (b : Bool) (d' : RawDirectory)
    (h : Add N NUM d name s heap = .ok (b, d')) :
    (b = false ∧ d' = d ∧ ¬ Absent N d.table name) ∨
    (b = true ∧ Absent N d.table name ∧
      ∃ i e, FirstFree d.table i e ∧ d' = { d with table := d.table.set i (e.fill N name s) }) ∨
    (b = true ∧ Absent N d.table name ∧ (∀ e ∈ d.table, e.inUse = true) ∧ 0 < NUM ∧
      d' = { table := grownTable N NUM d name s heap, tableSize := d.tableSize + NUM }) := by
  by_cases ha : Absent N d.table name
  · rcases firstFree_or_full d.table with ⟨i, e, hf⟩ | hfull
    · rw [add_of_firstFree N NUM d name s heap hwf ha hf] at h
      injection h with h
      injection h with h1 h2
      exact Or.inr (Or.inl ⟨h1.symm, ha, i, e, hf, h2.symm⟩)
    · rcases Nat.eq_zero_or_pos NUM with h0 | hpos
      · subst h0
        rw [add_of_full_zero N d name s heap hwf ha hfull] at h
        cases h
      · rw [add_of_full N NUM d name s heap hwf hpos ha hfull] at h
        injection h with h
        injection h with h1 h2
        exact Or.inr (Or.inr ⟨h1.symm, ha, hfull, hpos, h2.symm⟩)
  · obtain ⟨j, e, hj⟩ := firstHit_of_not_absent N d name hwf ha
    rw [add_of_firstHit N NUM d name s heap hwf hj] at h
    injection h with h
    injection h with h1 h2
    exact Or.inl ⟨h1.symm, h2.symm, ha⟩

/-- The two ways in which `Remove` returns. -/
theorem remove_cases (N : Nat) (d : RawDirectory) (name : List Nat) (hwf : d.WF) (b : Bool)
    (d' : RawDirectory) (h : Remove N d name = .ok (b, d')) :
    (b = false ∧ d' = d ∧ Absent N d.table name) ∨
    (b = true ∧ ∃ i e, FirstHit N d.table name i e ∧
      d' = { d with table := d.table.set i { e with inUse := false } }) := by
  by_cases ha : Absent N d.table name
  · rw [remove_of_absent N d name hwf ha] at h
    injection h with h
    injection h with h1 h2
    exact Or.inl ⟨h1.symm, h2.symm, ha⟩
  · obtain ⟨j, e, hj⟩ := firstHit_of_not_absent N d name hwf ha
    rw [remove_of_firstHit N d name hwf hj] at h
    injection h with h
    injection h with h1 h2
    exact Or.inr ⟨h1.symm, j, e, hj, h2.symm⟩

theorem add_wf (N NUM : Nat) (d : RawDirectory) (name : List Nat) (s : Int)
    (heap : Nat → DirectoryEntry) (hwf : d.WF) (b : Bool) (d' : RawDirectory)
    (h : Add N NUM d name s heap = .ok (b, d')) : d'.WF := by
  rcases add_cases N NUM d name s heap hwf b d' h with ⟨_, hd, _⟩ | ⟨_, _, i, e, _, hd⟩ |
    ⟨_, _, _, _, hd⟩
  · rw [hd]; exact hwf
  · rw [hd]; simpa [RawDirectory.WF] using hwf
  · rw [hd]; exact grownTable_length N NUM d name s heap hwf

theorem remove_wf (N : Nat) (d : RawDirectory) (name : List Nat) (hwf : d.WF) (b : Bool)
    (d' : RawDirectory) (h : Remove N d name = .ok (b, d')) : d'.WF := by
  rcases remove_cases N d name hwf b d' h with ⟨_, hd, _⟩ | ⟨_, i, e, _, hd⟩
  · rw [hd]; exact hwf
  · rw [hd]; simpa [RawDirectory.WF] using hwf

/-- One call in terms of `Add` and `Remove`. -/
theorem apply_cases (N NUM : Nat) (d d' : RawDirectory) (op : Op)
    (h : op.apply N NUM d = .ok d') :
    (∃ name s heap b, op = .add name s heap ∧ Add N NUM d name s heap = .ok (b, d')) ∨
    (∃ name b, op = .remove name ∧ Remove N d name = .ok (b, d')) := by
  cases op with
  | add name s heap =>
    left
    refine ⟨name, s, heap, ?_⟩
    simp only [Op.apply] at h
    cases hr : Add N NUM d name s heap with
    | fault f => rw [hr] at h; cases h
    | ok r =>
      rw [hr] at h
      injection h with h
      exact ⟨r.1, rfl, by rw [← h]⟩
  | remove name =>
    right
    refine ⟨name, ?_⟩
    simp only [Op.apply] at h
    cases hr : Remove N d name with
    | fault f => rw [hr] at h; cases h
    | ok r =>
      rw [hr] at h
      injection h with h
      exact ⟨r.1, rfl, by rw [← h]⟩

/-- A property that every returning call keeps holds after every returning
sequence of calls; `Q` restricts the calls. -/
theorem run_induction (N NUM : Nat) (P : RawDirectory → Prop) (Q : Op → Prop)
    (hstep : ∀ (d d' : RawDirectory) (op : Op), Q op → P d → op.apply N NUM d = .ok d' → P d') :
    ∀ ops d d', (∀ op ∈ ops, Q op) → P d → run N NUM d ops = .ok d' → P d' := by
  intro ops
  induction ops with
  | nil =>
    intro d d' _ hP h
    simp only [run] at h
    injection h with h
    exact h ▸ hP
  | cons op ops ih =>
    intro d d' hQ hP h
    simp only [run] at h
    cases hr : op.apply N NUM d with
    | fault f => rw [hr] at h; cases h
    | ok d1 =>
      rw [hr] at h
      exact ih d1 d' (fun o ho => hQ o (List.mem_cons_of_mem op ho))
        (hstep d d1 op (hQ op (List.mem_cons_self op ops)) hP hr) h

theorem apply_wf (N NUM : Nat) (d d' : RawDirectory) (op : Op) (hwf : d.WF)
    (h : op.apply N NUM d = .ok d') : d'.WF := by
  rcases apply_cases N NUM d d' op h with ⟨name, s, heap, b, _, hr⟩ | ⟨name, b, _, hr⟩
  · exact add_wf N NUM d name s heap hwf b d' hr
  · exact remove_wf N d name hwf b d' hr

theorem run_wf (N NUM : Nat) (ops : List Op) (d d' : RawDirectory) (hwf : d.WF)
    (h : run N NUM d ops = .ok d') : d'.WF :=
  run_induction N NUM RawDirectory.WF (fun _ => True)
    (fun d d' op _ => apply_wf N NUM d d' op) ops d d' (fun _ _ => trivial) hwf h

/-- The constructor with `init` returns a directory of `size` free entries. -/
theorem directory_init (size : Nat) (heap : Nat → DirectoryEntry) (hsize : 0 < size) :
    ∃ d, Directory size true heap = .ok d ∧ d.WF ∧ d.tableSize = size ∧
      ∀ e ∈ d.table, e.inUse = false := by
  obtain ⟨t, h1, h2, _, h4⟩ := directoryLoop_spec size 0 (newArray heap size)
    (by simp [newArray])
  have hlen : t.length = size := by simpa [newArray] using h2
  refine ⟨{ table := t, tableSize := size }, ?_, hlen, rfl, ?_⟩
  · have hne : size ≠ 0 := by omega
    simp [Directory, hne, h1]
  · intro e he
    obtain ⟨j, hj, hje⟩ := List.getElem_of_mem he
    have hj' : j < (newArray heap size).length := by rw [h2] at hj; exact hj
    have := h4 j _ (Nat.zero_le j) (List.getElem?_eq_getElem hj')
    rw [List.getElem?_eq_getElem hj, hje] at this
    injection this with this
    rw [this]

theorem length_writeAt (file : OpenFile) (src : List Nat) (n p : Nat) :
    (file.WriteAt src n p).bytes.length = file.bytes.length := by
  unfold OpenFile.WriteAt
  split
  · rfl
  · simp only [List.length_append, List.length_take, List.length_drop]
    omega

/-- Reading back the bytes just written, when the store holds them all. -/
theorem readAt_writeAt_same (file : OpenFile) (src into : List Nat) (n p : Nat)
    (hsrc : src.length = n) (hfit : p + n ≤ file.bytes.length) :
    (file.WriteAt src n p).ReadAt into n p = src := by
  unfold OpenFile.WriteAt
  split
  · have hn : n = 0 := by omega
    subst hn
    have : src = [] := List.eq_nil_of_length_eq_zero hsrc
    simp [OpenFile.ReadAt, this]
  · have hsrc' : src.take n = src := List.take_of_length_le (by omega)
    have hput : (src.take n).take (file.bytes.length - p) = src := by
      rw [hsrc', List.take_of_length_le (by omega)]
    simp only [hput, OpenFile.ReadAt]
    have hdrop : List.drop p (List.take p file.bytes ++ src ++
        List.drop (p + src.length) file.bytes) = src ++ List.drop (p + src.length) file.bytes := by
      rw [List.append_assoc]
      exact List.drop_left' (by simp; omega)
    rw [hdrop, List.take_left' hsrc, List.drop_of_length_le (by simp; omega)]
    simp

/-- A write does not change what is read before its position. -/
theorem readAt_writeAt_before (file : OpenFile) (src into : List Nat) (n1 p1 n2 p2 : Nat)
    (h : p1 + n1 ≤ p2) :
    (file.WriteAt src n2 p2).ReadAt into n1 p1 = file.ReadAt into n1 p1 := by
  unfold OpenFile.WriteAt
  split
  · rfl
  · rename_i hlen
    have hgot : List.take n1 (List.drop p1 (List.take p2 file.bytes ++
          List.take (file.bytes.length - p2) (List.take n2 src) ++
          List.drop (p2 + (List.take (file.bytes.length - p2) (List.take n2 src)).length)
            file.bytes)) = List.take n1 (List.drop p1 file.bytes) := by
      apply List.ext_getElem?
      intro i
      simp only [List.getElem?_take, List.getElem?_drop]
      split
      · rw [List.append_assoc, List.getElem?_append_left (by simp; omega)]
        rw [List.getElem?_take_of_lt (by omega)]
      · rfl
    simp only [OpenFile.ReadAt, hgot]

theorem image_cons (L : Layout) (e : DirectoryEntry) (t : List DirectoryEntry) :
    L.image (e :: t) = L.entryBytes e ++ L.image t := by
  simp [Layout.image]

theorem image_length (L : Layout) (t : List DirectoryEntry)
    (h : ∀ e ∈ t, (L.entryBytes e).length = L.sizeofEntry) :
    (L.image t).length = t.length * L.sizeofEntry := by
  induction t with
  | nil => simp [Layout.image]
  | cons e t ih =>
    rw [image_cons, List.length_append, h e (List.mem_cons_self e t),
      ih (fun e' he' => h e' (List.mem_cons_of_mem e he')), List.length_cons]
    rw [Nat.add_mul, Nat.one_mul, Nat.add_comm]

theorem chunks_image (L : Layout) (t : List DirectoryEntry)
    (h : ∀ e ∈ t, (L.entryBytes e).length = L.sizeofEntry) :
    chunks L.sizeofEntry t.length (L.image t) = t.map L.entryBytes := by
  induction t with
  | nil => simp [chunks]
  | cons e t ih =>
    have he := h e (List.mem_cons_self e t)
    rw [image_cons, List.length_cons, chunks, List.take_left' he, List.drop_left' he,
      ih (fun e' he' => h e' (List.mem_cons_of_mem e he')), List.map_cons]

/-- What `WriteBack` wrote, `FetchFrom` reads: the directory itself. -/
theorem fetchFrom_writeBack (L : Layout) (d dNew : RawDirectory) (file : OpenFile)
    (sizeJunk : Nat) (heap : Nat → DirectoryEntry) (hwf : d.WF)
    (hcw : L.sizeofUnsigned ≤ L.sizeofEntry) (hcount : L.CountOK d.tableSize)
    (hentries : ∀ e ∈ d.table, L.EntryOK e)
    (hfile : (d.tableSize + 1) * L.sizeofEntry ≤ file.bytes.length) :
    ∃ file', WriteBack L d file = .ok file' ∧ FetchFrom L dNew file' sizeJunk heap = .ok d := by
  have hlen : d.table.length = d.tableSize := hwf
  have htake : d.table.take d.tableSize = d.table := by rw [← hlen, List.take_length]
  have hlens : ∀ e ∈ d.table, (L.entryBytes e).length = L.sizeofEntry :=
    fun e he => (hentries e he).1
  have himg : (L.image d.table).length = d.tableSize * L.sizeofEntry := by
    rw [image_length L d.table hlens, hlen]
  have hmul : (d.tableSize + 1) * L.sizeofEntry = L.sizeofEntry + d.tableSize * L.sizeofEntry := by
    rw [Nat.add_mul, Nat.one_mul, Nat.add_comm]
  refine ⟨(file.WriteAt (L.unsignedBytes d.tableSize) L.sizeofUnsigned 0).WriteAt
      (L.image d.table) (d.tableSize * L.sizeofEntry) L.sizeofEntry, ?_, ?_⟩
  · simp [WriteBack, hlen, htake]
  have hread1 : ((file.WriteAt (L.unsignedBytes d.tableSize) L.sizeofUnsigned 0).WriteAt
      (L.image d.table) (d.tableSize * L.sizeofEntry) L.sizeofEntry).ReadAt
      (L.unsignedBytes sizeJunk) L.sizeofUnsigned 0 = L.unsignedBytes d.tableSize := by
    rw [readAt_writeAt_before _ _ _ _ _ _ _ (by omega)]
    exact readAt_writeAt_same _ _ _ _ _ hcount.1 (by omega)
  have hread2 : ∀ into, ((file.WriteAt (L.unsignedBytes d.tableSize) L.sizeofUnsigned 0).WriteAt
      (L.image d.table) (d.tableSize * L.sizeofEntry) L.sizeofEntry).ReadAt
      into (d.tableSize * L.sizeofEntry) L.sizeofEntry = L.image d.table := by
    intro into
    exact readAt_writeAt_same _ _ _ _ _ himg (by rw [length_writeAt]; omega)
  have hdec : (d.table.map L.entryBytes).map L.entryOfBytes = d.table := by
    rw [List.map_map]
    conv => rhs; rw [← List.map_id d.table]
    apply List.map_congr_left
    intro e he
    exact (hentries e he).2
  have hchunks : chunks L.sizeofEntry d.tableSize (L.image d.table) =
      d.table.map L.entryBytes := by
    rw [← hlen]
    exact chunks_image L d.table hlens
  · simp only [FetchFrom, hread1, hcount.2, hread2, hchunks, hdec]

theorem chunks_length (w n : Nat) (bs : List Nat) : (chunks w n bs).length = n := by
  induction n generalizing bs with
  | zero => rfl
  | succ n ih => simp [chunks, ih]

/-- `FetchFrom` returns a directory whose array has `tableSize` entries. -/
theorem fetchFrom_wf (L : Layout) (dOld d : RawDirectory) (file : OpenFile) (sizeJunk : Nat)
    (heap : Nat → DirectoryEntry) (h : FetchFrom L dOld file sizeJunk heap = .ok d) : d.WF := by
  simp only [FetchFrom] at h
  injection h with h
  rw [← h]
  simp [RawDirectory.WF, chunks_length]

/-- A constructor call that returns was given a positive size. -/
theorem directory_ok (size : Nat) (init : Bool) (heap : Nat → DirectoryEntry) (d : RawDirectory)
    (h : Directory size init heap = .ok d) : 0 < size ∧ d.tableSize = size := by
  rcases Nat.eq_zero_or_pos size with h0 | hpos
  · subst h0
    simp [Directory] at h
  · refine ⟨hpos, ?_⟩
    have hne : size ≠ 0 := by omega
    cases init with
    | true =>
      obtain ⟨d1, h1, _, h3, _⟩ := directory_init size heap hpos
      rw [h1] at h
      injection h with h
      rw [← h, h3]
    | false =>
      simp [Directory, hne] at h
      rw [← h]

theorem directory_wf (size : Nat) (heap : Nat → DirectoryEntry) (d : RawDirectory)
    (h : Directory size true heap = .ok d) : d.WF ∧ ∀ e ∈ d.table, e.inUse = false := by
  obtain ⟨d1, h1, h2, _, h4⟩ := directory_init size heap (directory_ok size true heap d h).1
  rw [h1] at h
  injection h with h
  rw [← h]
  exact ⟨h2, h4⟩

/-- A call leaves the size as it was or adds `NUM` to it. -/
theorem apply_size (N NUM : Nat) (d d' : RawDirectory) (op : Op) (hwf : d.WF)
    (h : op.apply N NUM d = .ok d') :
    d'.tableSize = d.tableSize ∨ d'.tableSize = d.tableSize + NUM := by
  rcases apply_cases N NUM d d' op h with ⟨name, s, heap, b, _, hr⟩ | ⟨name, b, _, hr⟩
  · rcases add_cases N NUM d name s heap hwf b d' hr with ⟨_, hd, _⟩ | ⟨_, _, i, e, _, hd⟩ |
      ⟨_, _, _, _, hd⟩
    · left; rw [hd]
    · left; rw [hd]
    · right; rw [hd]
  · rcases remove_cases N d name hwf b d' hr with ⟨_, hd, _⟩ | ⟨_, i, e, _, hd⟩
    · left; rw [hd]
    · left; rw [hd]

/-- Filling a slot with an absent name keeps the in-use names distinct. -/
theorem inUseDistinct_set_fill (N : Nat) (t : List DirectoryEntry) (name : List Nat) (s : Int)
    (i : Nat) (e : DirectoryEntry) (hdist : InUseDistinct N t) (ha : Absent N t name) :
    InUseDistinct N (t.set i (e.fill N name s)) := by
  have hkey : ∀ (b : Nat) (eb : DirectoryEntry), t[b]? = some eb → eb.inUse = true →
      nameKey N eb.name ≠ nameKey N name :=
    fun b eb hb hu => (absent_iff N t name).mp ha eb (mem_of_get hb) hu
  have hfill : nameKey N (e.fill N name s).name = nameKey N name := nameKey_strncpy N _ name
  intro a b ea eb hea heb hab hua hub
  by_cases hai : a = i
  · subst hai
    have hbi : a ≠ b := hab
    rw [List.getElem?_set_ne hbi] at heb
    have hlt : a < t.length := by
      have := (List.getElem?_eq_some_iff.mp hea).1
      simpa using this
    rw [List.getElem?_set_self hlt] at hea
    injection hea with hea
    rw [← hea, hfill]
    exact fun h => hkey b eb heb hub h.symm
  · rw [List.getElem?_set_ne (fun h => hai h.symm)] at hea
    by_cases hbi : b = i
    · subst hbi
      have hlt : b < t.length := by
        have := (List.getElem?_eq_some_iff.mp heb).1
        simpa using this
      rw [List.getElem?_set_self hlt] at heb
      injection heb with heb
      rw [← heb, hfill]
      exact hkey a ea hea hua
    · rw [List.getElem?_set_ne (fun h => hbi h.symm)] at heb
      exact hdist a b ea eb hea heb hab hua hub

/-- Marking a slot free keeps the in-use names distinct. -/
theorem inUseDistinct_set_free (N : Nat) (t : List DirectoryEntry) (i : Nat)
    (e : DirectoryEntry) (hdist : InUseDistinct N t) :
    InUseDistinct N (t.set i { e with inUse := false }) := by
  have hold : ∀ (a : Nat) (ea : DirectoryEntry),
      (t.set i { e with inUse := false })[a]? = some ea → ea.inUse = true → t[a]? = some ea := by
    intro a ea hea hua
    by_cases hai : a = i
    · subst hai
      have hlt : a < t.length := by
        have := (List.getElem?_eq_some_iff.mp hea).1
        simpa using this
      rw [List.getElem?_set_self hlt] at hea
      injection hea with hea
      rw [← hea] at hua
      cases hua
    · rw [List.getElem?_set_ne (fun h => hai h.symm)] at hea
      exact hea
  intro a b ea eb hea heb hab hua hub
  exact hdist a b ea eb (hold a ea hea hua) (hold b eb heb hub) hab hua hub

/-- A growth into memory without in-use marks keeps the in-use names distinct. -/
theorem inUseDistinct_grownTable (N NUM : Nat) (d : RawDirectory) (name : List Nat) (s : Int)
    (heap : Nat → DirectoryEntry) (hwf : d.WF) (hNUM : 0 < NUM)
    (hheap : ∀ i, (heap i).inUse = false) (hdist : InUseDistinct N d.table)
    (ha : Absent N d.table name) : InUseDistinct N (grownTable N NUM d name s heap) := by
  have hlen := grownTable_length N NUM d name s heap hwf
  have hfill : nameKey N ((heap d.tableSize).fill N name s).name = nameKey N name :=
    nameKey_strncpy N _ name
  -- an in-use entry of the grown table is an old entry or the new one
  have hcase : ∀ (a : Nat) (ea : DirectoryEntry),
      (grownTable N NUM d name s heap)[a]? = some ea → ea.inUse = true →
      (a < d.tableSize ∧ d.table[a]? = some ea) ∨
      (a = d.tableSize ∧ nameKey N ea.name = nameKey N name) := by
    intro a ea hea hua
    have halt : a < d.tableSize + NUM := hlen ▸ (List.getElem?_eq_some_iff.mp hea).1
    rcases Nat.lt_trichotomy a d.tableSize with hlt | heq | hgt
    · left
      rw [grownTable_old N NUM d name s heap hwf a hlt] at hea
      exact ⟨hlt, hea⟩
    · right
      subst heq
      rw [grownTable_new N NUM d name s heap hwf hNUM] at hea
      injection hea with hea
      rw [← hea]
      exact ⟨rfl, hfill⟩
    · rw [grownTable_rest N NUM d name s heap hwf a hgt halt] at hea
      injection hea with hea
      rw [← hea, hheap a] at hua
      cases hua
  have hkey : ∀ (b : Nat) (eb : DirectoryEntry), d.table[b]? = some eb → eb.inUse = true →
      nameKey N eb.name ≠ nameKey N name :=
    fun b eb hb hu => (absent_iff N d.table name).mp ha eb (mem_of_get hb) hu
  intro a b ea eb hea heb hab hua hub
  rcases hcase a ea hea hua with ⟨_, ha1⟩ | ⟨ha1, ha2⟩
  · rcases hcase b eb heb hub with ⟨_, hb1⟩ | ⟨_, hb2⟩
    · exact hdist a b ea eb ha1 hb1 hab hua hub
    · rw [hb2]
      exact hkey a ea ha1 hua
  · rcases hcase b eb heb hub with ⟨_, hb1⟩ | ⟨hb1, _⟩
    · rw [ha2]
      exact fun h => hkey b eb hb1 hub h.symm
    · exact absurd (ha1.trans hb1.symm) hab

/-- The in-use names stay pairwise distinct along every sequence of calls whose
growths allocate memory without in-use marks. -/
theorem inUseDistinct_run_of_heapFree (N NUM : Nat) (ops : List Op) (d d' : RawDirectory)
    (hfree : ∀ op ∈ ops, op.heapFree) (hwf : d.WF) (hdist : InUseDistinct N d.table)
    (h : run N NUM d ops = .ok d') : InUseDistinct N d'.table := by
  have key := run_induction N NUM (fun x => x.WF ∧ InUseDistinct N x.table) Op.heapFree
    (fun x x' op hq hP hr => by
      refine ⟨apply_wf N NUM x x' op hP.1 hr, ?_⟩
      rcases apply_cases N NUM x x' op hr with ⟨name, s, heap, b, hop, hadd⟩ | ⟨name, b, _, hrem⟩
      · rcases add_cases N NUM x name s heap hP.1 b x' hadd with ⟨_, hd, _⟩ |
          ⟨_, ha, i, e, _, hd⟩ | ⟨_, ha, _, hNUM, hd⟩
        · rw [hd]; exact hP.2
        · rw [hd]; exact inUseDistinct_set_fill N x.table name s i e hP.2 ha
        · rw [hd]
          rw [hop] at hq
          exact inUseDistinct_grownTable N NUM x name s heap hP.1 hNUM hq hP.2 ha
      · rcases remove_cases N x name hP.1 b x' hrem with ⟨_, hd, _⟩ | ⟨_, i, e, _, hd⟩
        · rw [hd]; exact hP.2
        · rw [hd]; exact inUseDistinct_set_free N x.table i e hP.2)
    ops d d' hfree ⟨hwf, hdist⟩ h
  exact key.2

/-! ## The claims -/

/-- C1: on a directory whose array has `tableSize` entries, `Add` returns, and
it returns true exactly when `FindIndex` returns -1 beforehand, that is when no
in-use entry agrees with the name on the first `FILE_NAME_MAX_LEN` bytes; in
particular it returns true for an absent name when every slot is in use. -/
theorem add_true_iff_not_found (N NUM : Nat) (d : RawDirectory) (name : List Nat) (s : Int)
    (heap : Nat → DirectoryEntry) (hwf : d.WF) (hNUM : 0 < NUM) :
    ∃ b d', Add N NUM d name s heap = .ok (b, d') ∧
      (b = true ↔ FindIndex N d name = .ok (-1)) ∧
      (b = true ↔ ∀ e ∈ d.table, e.inUse = true → nameKey N e.name ≠ nameKey N name) ∧
      ((∀ e ∈ d.table, e.inUse = true) → FindIndex N d name = .ok (-1) → b = true) := by
  rw [← absent_iff, findIndex_eq_neg_one_iff N d name hwf]
  by_cases ha : Absent N d.table name
  · rcases firstFree_or_full d.table with ⟨i, e, hf⟩ | hfull
    · exact ⟨true, _, add_of_firstFree N NUM d name s heap hwf ha hf, by simp [ha], by simp [ha],
        fun _ _ => rfl⟩
    · exact ⟨true, _, add_of_full N NUM d name s heap hwf hNUM ha hfull, by simp [ha],
        by simp [ha], fun _ _ => rfl⟩
  · obtain ⟨j, e, hj⟩ := firstHit_of_not_absent N d name hwf ha
    exact ⟨false, d, add_of_firstHit N NUM d name s heap hwf hj, by simp [ha], by simp [ha],
      fun _ h => absurd h ha⟩

/-- Witness of C1: the full directory `full1` and the absent name `b`. -/
theorem add_true_iff_not_found_witness :
    full1.WF ∧ 0 < 8 ∧ (∀ e ∈ full1.table, e.inUse = true) ∧
    ∃ b d', Add 9 8 full1 (cstr "b") 7 staleHeap = .ok (b, d') ∧
      (b = true ↔ FindIndex 9 full1 (cstr "b") = .ok (-1)) ∧
      (b = true ↔ ∀ e ∈ full1.table, e.inUse = true →
        nameKey 9 e.name ≠ nameKey 9 (cstr "b")) ∧
      ((∀ e ∈ full1.table, e.inUse = true) → FindIndex 9 full1 (cstr "b") = .ok (-1) →
        b = true) :=
  ⟨by decide, by decide, by decide,
    add_true_iff_not_found 9 8 full1 (cstr "b") 7 staleHeap (by decide) (by decide)⟩

/-- C2: when an in-use entry agrees with the name and `Find` returns `L`, `Add`
of that name returns false and leaves the directory as it was, size and
entries, so `Find` still returns `L`. -/
theorem add_duplicate_rejected (N NUM : Nat) (d : RawDirectory) (name : List Nat)
    (L L' : Int) (heap : Nat → DirectoryEntry) (hwf : d.WF)
    (hpres : ∃ e ∈ d.table, e.inUse = true ∧ nameKey N e.name = nameKey N name)
    (hL : Find N d name = .ok L) :
    ∃ d', Add N NUM d name L' heap = .ok (false, d') ∧ d'.tableSize = d.tableSize ∧
      d'.table = d.table ∧ Find N d' name = .ok L := by
  obtain ⟨j, e, hj⟩ := firstHit_of_not_absent N d name hwf ((not_absent_iff N _ _).mpr hpres)
  exact ⟨d, add_of_firstHit N NUM d name L' heap hwf hj, rfl, rfl, hL⟩

/-- Witness of C2: `Add("a", 5)` on an empty directory, then `Add("a", 9)`. -/
theorem add_duplicate_rejected_witness :
    Add 9 8 empty4 (cstr "a") 5 zeroHeap = .ok (true, dirA) ∧ dirA.WF ∧
    (∃ e ∈ dirA.table, e.inUse = true ∧ nameKey 9 e.name = nameKey 9 (cstr "a")) ∧
    Find 9 dirA (cstr "a") = .ok 5 ∧
    ∃ d', Add 9 8 dirA (cstr "a") 9 zeroHeap = .ok (false, d') ∧
      d'.tableSize = dirA.tableSize ∧ d'.table = dirA.table ∧
      Find 9 d' (cstr "a") = .ok 5 :=
  ⟨by decide, by decide, by decide, by decide,
    add_duplicate_rejected 9 8 dirA (cstr "a") 5 9 zeroHeap (by decide) (by decide)
      (by decide)⟩

/-- C3: for a name that no in-use entry agrees with, `Add(name, L)` returns true
and `Find(name)` on the directory it leaves returns `L`, whether a free slot
was reused or the table grew. -/
theorem find_after_add (N NUM : Nat) (d : RawDirectory) (name : List Nat) (L : Int)
    (heap : Nat → DirectoryEntry) (hwf : d.WF) (hNUM : 0 < NUM)
    (habs : ∀ e ∈ d.table, e.inUse = true → nameKey N e.name ≠ nameKey N name) :
    ∃ d', Add N NUM d name L heap = .ok (true, d') ∧ d'.WF ∧ Find N d' name = .ok L := by
  have ha : Absent N d.table name := (absent_iff N _ _).mpr habs
  rcases firstFree_or_full d.table with ⟨i, e, hf⟩ | hfull
  · have hwf' : RawDirectory.WF { d with table := d.table.set i (e.fill N name L) } := by
      simpa [RawDirectory.WF] using hwf
    have hi : i < d.table.length := (List.getElem?_eq_some_iff.mp hf.1).1
    refine ⟨_, add_of_firstFree N NUM d name L heap hwf ha hf, hwf', ?_⟩
    have hfh : FirstHit N (d.table.set i (e.fill N name L)) name i (e.fill N name L) := by
      refine ⟨by simp [hi], hit_fill N name L e, ?_⟩
      intro j e' hj hje
      rw [List.getElem?_set_ne (by omega)] at hje
      exact ha e' (mem_of_get hje)
    exact find_of_firstHit N _ name hwf' hfh
  · have hwf' : RawDirectory.WF
        { table := grownTable N NUM d name L heap, tableSize := d.tableSize + NUM } :=
      grownTable_length N NUM d name L heap hwf
    refine ⟨_, add_of_full N NUM d name L heap hwf hNUM ha hfull, hwf', ?_⟩
    have hfh : FirstHit N (grownTable N NUM d name L heap) name d.tableSize
        ((heap d.tableSize).fill N name L) := by
      refine ⟨grownTable_new N NUM d name L heap hwf hNUM, hit_fill N name L _, ?_⟩
      intro j e' hj hje
      rw [grownTable_old N NUM d name L heap hwf j hj] at hje
      exact ha e' (mem_of_get hje)
    exact find_of_firstHit N _ name hwf' hfh

/-- Witness of C3: on `Directory(4, true)`, `Add("foo.txt", 10)` and
`Add("bar.txt", 20)` both return true and `Find("foo.txt")` is 10. -/
theorem find_after_add_witness :
    Directory 4 true zeroHeap = .ok empty4 ∧ empty4.WF ∧ 0 < 8 ∧
    (∀ e ∈ empty4.table, e.inUse = true → nameKey 9 e.name ≠ nameKey 9 (cstr "foo.txt")) ∧
    (∃ d', Add 9 8 empty4 (cstr "foo.txt") 10 zeroHeap = .ok (true, d') ∧ d'.WF ∧
      Find 9 d' (cstr "foo.txt") = .ok 10) ∧
    Add 9 8 empty4 (cstr "foo.txt") 10 zeroHeap = .ok (true, dirFoo) ∧
    Add 9 8 dirFoo (cstr "bar.txt") 20 zeroHeap = .ok (true, dirFooBar) ∧
    Find 9 dirFooBar (cstr "foo.txt") = .ok 10 :=
  ⟨by decide, by decide, by decide, by decide,
    find_after_add 9 8 empty4 (cstr "foo.txt") 10 zeroHeap (by decide) (by decide) (by decide),
    by decide, by decide, by decide⟩

/-- C4: when every slot is in use and no entry agrees with the name, `Add`
returns true, the size grows by exactly `NUM_DIR_ENTRYS_SECTOR` (to twice the
size when the size was one unit), the old entries keep their places, slot `S`
is in use with the new name and sector, and `Find` of every name that was
present returns what it returned before. -/
theorem add_grows_full_table (N NUM : Nat) (d : RawDirectory) (name : List Nat) (L : Int)
    (heap : Nat → DirectoryEntry) (hwf : d.WF) (hNUM : 0 < NUM)
    (hfull : ∀ e ∈ d.table, e.inUse = true)
    (habs : ∀ e ∈ d.table, e.inUse = true → nameKey N e.name ≠ nameKey N name) :
    ∃ d', Add N NUM d name L heap = .ok (true, d') ∧
      d'.tableSize = d.tableSize + NUM ∧ d'.table.length = d.tableSize + NUM ∧
      (d.tableSize = NUM → d'.tableSize = 2 * d.tableSize) ∧
      (∀ i, i < d.tableSize → d'.table[i]? = d.table[i]?) ∧
      (∃ e, d'.table[d.tableSize]? = some e ∧ e.inUse = true ∧
        e.name = strncpy (heap d.tableSize).name name N ∧
        nameKey N e.name = nameKey N name ∧ e.sector = L) ∧
      (∀ other, (∃ e ∈ d.table, e.inUse = true ∧ nameKey N e.name = nameKey N other) →
        Find N d' other = Find N d other) := by
  have ha : Absent N d.table name := (absent_iff N _ _).mpr habs
  have hwf' : RawDirectory.WF
      { table := grownTable N NUM d name L heap, tableSize := d.tableSize + NUM } :=
    grownTable_length N NUM d name L heap hwf
  refine ⟨_, add_of_full N NUM d name L heap hwf hNUM ha hfull, rfl, hwf', ?_,
    grownTable_old N NUM d name L heap hwf, ?_, ?_⟩
  · intro h
    show d.tableSize + NUM = 2 * d.tableSize
    omega
  · exact ⟨_, grownTable_new N NUM d name L heap hwf hNUM, rfl, rfl,
      nameKey_strncpy N _ name, rfl⟩
  · intro other hpres
    obtain ⟨j, e, hj⟩ :=
      firstHit_of_not_absent N d other hwf ((not_absent_iff N _ _).mpr hpres)
    have hjlt : j < d.tableSize := hwf ▸ hj.lt
    have hj' : FirstHit N (grownTable N NUM d name L heap) other j e :=
      hj.of_prefix (fun i hi => grownTable_old N NUM d name L heap hwf i (by omega))
    rw [find_of_firstHit N d other hwf hj, find_of_firstHit N _ other hwf' hj']

/-- Witness of C4: `Add("b", 7)` on the full directory `full1`, the allocator
handing out stale memory. -/
theorem add_grows_full_table_witness :
    full1.WF ∧ 0 < 8 ∧ (∀ e ∈ full1.table, e.inUse = true) ∧
    (∀ e ∈ full1.table, e.inUse = true → nameKey 9 e.name ≠ nameKey 9 (cstr "b")) ∧
    ∃ d', Add 9 8 full1 (cstr "b") 7 staleHeap = .ok (true, d') ∧
      d'.tableSize = full1.tableSize + 8 ∧ d'.table.length = full1.tableSize + 8 ∧
      (full1.tableSize = 8 → d'.tableSize = 2 * full1.tableSize) ∧
      (∀ i, i < full1.tableSize → d'.table[i]? = full1.table[i]?) ∧
      (∃ e, d'.table[full1.tableSize]? = some e ∧ e.inUse = true ∧
        e.name = strncpy (staleHeap full1.tableSize).name (cstr "b") 9 ∧
        nameKey 9 e.name = nameKey 9 (cstr "b") ∧ e.sector = 7) ∧
      (∀ other,
        (∃ e ∈ full1.table, e.inUse = true ∧ nameKey 9 e.name = nameKey 9 other) →
        Find 9 d' other = Find 9 full1 other) :=
  ⟨by decide, by decide, by decide, by decide,
    add_grows_full_table 9 8 full1 (cstr "b") 7 staleHeap (by decide) (by decide) (by decide)
      (by decide)⟩

/-- C5: when some slot is free and no entry agrees with the name, `Add` returns
true, fills the lowest-index free slot (in use, name copied, sector set) and
leaves the size and every other entry as they were; and after a `Remove` that
returned true, an `Add` of an absent name leaves the size unchanged. -/
theorem add_first_fit (N NUM : Nat) (d : RawDirectory) (name : List Nat) (L : Int)
    (heap : Nat → DirectoryEntry) (hwf : d.WF) :
    ((∃ e ∈ d.table, e.inUse = false) →
      (∀ e ∈ d.table, e.inUse = true → nameKey N e.name ≠ nameKey N name) →
      ∃ i e0 d', FirstFree d.table i e0 ∧ Add N NUM d name L heap = .ok (true, d') ∧
        d'.tableSize = d.tableSize ∧ d'.table.length = d.table.length ∧
        (∃ e, d'.table[i]? = some e ∧ e.inUse = true ∧ e.name = strncpy e0.name name N ∧
          nameKey N e.name = nameKey N name ∧ e.sector = L) ∧
        (∀ j, j ≠ i → d'.table[j]? = d.table[j]?)) ∧
    (∀ a b s d1, Remove N d a = .ok (true, d1) →
      (∀ e ∈ d1.table, e.inUse = true → nameKey N e.name ≠ nameKey N b) →
      ∃ d2, Add N NUM d1 b s heap = .ok (true, d2) ∧ d2.tableSize = d.tableSize ∧
        d2.table.length = d.table.length) := by
  constructor
  · intro hfree habs
    have ha : Absent N d.table name := (absent_iff N _ _).mpr habs
    rcases firstFree_or_full d.table with ⟨i, e0, hf⟩ | hfull
    · have hi : i < d.table.length := (List.getElem?_eq_some_iff.mp hf.1).1
      refine ⟨i, e0, _, hf, add_of_firstFree N NUM d name L heap hwf ha hf, rfl, by simp,
        ⟨e0.fill N name L, by simp [hi], rfl, rfl, nameKey_strncpy N _ name, rfl⟩, ?_⟩
      intro j hj
      exact List.getElem?_set_ne (fun h => hj h.symm)
    · obtain ⟨e, he, hfe⟩ := hfree
      rw [hfull e he] at hfe
      cases hfe
  · intro a b s d1 hrem hb
    have hpres : ¬ Absent N d.table a := by
      intro habs'
      rw [remove_of_absent N d a hwf habs'] at hrem
      cases hrem
    obtain ⟨j, e, hj⟩ := firstHit_of_not_absent N d a hwf hpres
    rw [remove_of_firstHit N d a hwf hj] at hrem
    have hd1 : d1 = { d with table := d.table.set j { e with inUse := false } } := by
      injection hrem with hrem
      exact (congrArg Prod.snd hrem).symm
    have hwf1 : d1.WF := by
      rw [hd1]
      simpa [RawDirectory.WF] using hwf
    have hjlt : j < d.table.length := hj.lt
    have hfree1 : ¬ ∀ e' ∈ d1.table, e'.inUse = true := by
      intro hall
      have hmem : ({ e with inUse := false } : DirectoryEntry) ∈ d1.table := by
        rw [hd1]
        exact mem_of_get (i := j) (by simp [hjlt])
      have := hall _ hmem
      cases this
    rcases firstFree_or_full d1.table with ⟨i, e0, hf⟩ | hfull
    · refine ⟨_, add_of_firstFree N NUM d1 b s heap hwf1 ((absent_iff N _ _).mpr hb) hf, ?_, ?_⟩
      · rw [hd1]
      · rw [hd1]; simp
    · exact absurd hfull hfree1

/-- Witness of C5: on the full directory `full1`, `Remove("a")` followed by
`Add("b", 7)` keeps the size 1; and `Add("bar.txt", 20)` on `dirFoo` fills
slot 1. -/
theorem add_first_fit_witness :
    full1.WF ∧ full1.tableSize = 1 ∧
    (((∃ e ∈ full1.table, e.inUse = false) →
      (∀ e ∈ full1.table, e.inUse = true → nameKey 9 e.name ≠ nameKey 9 (cstr "b")) →
      ∃ i e0 d', FirstFree full1.table i e0 ∧
        Add 9 8 full1 (cstr "b") 7 staleHeap = .ok (true, d') ∧
        d'.tableSize = full1.tableSize ∧ d'.table.length = full1.table.length ∧
        (∃ e, d'.table[i]? = some e ∧ e.inUse = true ∧
          e.name = strncpy e0.name (cstr "b") 9 ∧
          nameKey 9 e.name = nameKey 9 (cstr "b") ∧ e.sector = 7) ∧
        (∀ j, j ≠ i → d'.table[j]? = full1.table[j]?)) ∧
    (∀ a b s d1, Remove 9 full1 a = .ok (true, d1) →
      (∀ e ∈ d1.table, e.inUse = true → nameKey 9 e.name ≠ nameKey 9 b) →
      ∃ d2, Add 9 8 d1 b s staleHeap = .ok (true, d2) ∧ d2.tableSize = full1.tableSize ∧
        d2.table.length = full1.table.length)) ∧
    ((Remove 9 full1 (cstr "a")).getD (false, full1)).1 = true ∧
    ((Add 9 8 ((Remove 9 full1 (cstr "a")).getD (false, full1)).2 (cstr "b") 7
      staleHeap).getD (false, dirFoo)) =
      (true, ⟨[⟨true, [98, 0, 0, 0, 0, 0, 0, 0, 0, 0], 7⟩], 1⟩) ∧
    dirFoo.WF ∧ (∃ e ∈ dirFoo.table, e.inUse = false) ∧
    Add 9 8 dirFoo (cstr "bar.txt") 20 zeroHeap = .ok (true, dirFooBar) ∧
    dirFooBar.tableSize = 4 ∧ (dirFooBar.table[1]?).map (fun e => e.sector) = some 20 :=
  ⟨by decide, by decide,
    add_first_fit 9 8 full1 (cstr "b") 7 staleHeap (by decide),
    by decide, by decide, by decide, by decide, by decide, by decide, by decide⟩

/-- C6: `Remove` returns, and it returns true exactly when `FindIndex` returns an
index, not -1, beforehand; when it returns false the directory is left as it
was. -/
theorem remove_true_iff_found (N : Nat) (d : RawDirectory) (name : List Nat) (hwf : d.WF) :
    ∃ b d', Remove N d name = .ok (b, d') ∧
      (b = true ↔ ∃ i : Nat, i < d.tableSize ∧ FindIndex N d name = .ok (i : Int)) ∧
      (b = true ↔ FindIndex N d name ≠ .ok (-1)) ∧
      (b = false → d'.tableSize = d.tableSize ∧ d'.table = d.table) := by
  by_cases ha : Absent N d.table name
  · have hfi := findIndex_of_absent N d name hwf ha
    refine ⟨false, d, remove_of_absent N d name hwf ha, ?_, by simp [hfi], fun _ => ⟨rfl, rfl⟩⟩
    rw [hfi]
    constructor
    · intro h; cases h
    · rintro ⟨i, _, h⟩
      injection h with h
      omega
  · obtain ⟨j, e, hj⟩ := firstHit_of_not_absent N d name hwf ha
    have hfi := findIndex_of_firstHit N d name hwf hj
    refine ⟨true, _, remove_of_firstHit N d name hwf hj, ?_, ?_, ?_⟩
    · simp only [true_iff]
      exact ⟨j, hwf ▸ hj.lt, hfi⟩
    · simp only [true_iff]
      rw [hfi]
      intro h
      injection h with h
      omega
    · intro h; cases h

/-- Witness of C6: `Remove("bar.txt")` on `dirFooBar`. -/
theorem remove_true_iff_found_witness :
    dirFooBar.WF ∧
    ∃ b d', Remove 9 dirFooBar (cstr "bar.txt") = .ok (b, d') ∧
      (b = true ↔ ∃ i : Nat, i < dirFooBar.tableSize ∧
        FindIndex 9 dirFooBar (cstr "bar.txt") = .ok (i : Int)) ∧
      (b = true ↔ FindIndex 9 dirFooBar (cstr "bar.txt") ≠ .ok (-1)) ∧
      (b = false → d'.tableSize = dirFooBar.tableSize ∧ d'.table = dirFooBar.table) :=
  ⟨by decide, remove_true_iff_found 9 dirFooBar (cstr "bar.txt") (by decide)⟩

/-- C8: for a directory obtained from `Directory(size, true)` by a sequence of
calls, `WriteBack` to a store of at least `(tableSize + 1)` records followed by
`FetchFrom` of that store into another directory yields the same size and the
same entries, so `Find` returns the same for every name; the layout is one
that reads back the count and the entries of the directory from their bytes. -/
theorem fetchFrom_after_writeBack (L : Layout) (N NUM size : Nat)
    (heap0 heap1 : Nat → DirectoryEntry) (ops : List Op) (d0 d dNew : RawDirectory)
    (file : OpenFile) (sizeJunk : Nat)
    (h0 : Directory size true heap0 = .ok d0) (hrun : run N NUM d0 ops = .ok d)
    (hcw : L.sizeofUnsigned ≤ L.sizeofEntry) (hcount : L.CountOK d.tableSize)
    (hentries : ∀ e ∈ d.table, L.EntryOK e)
    (hfile : (d.tableSize + 1) * L.sizeofEntry ≤ file.bytes.length) :
    ∃ file' d', WriteBack L d file = .ok file' ∧
      FetchFrom L dNew file' sizeJunk heap1 = .ok d' ∧
      d'.tableSize = d.tableSize ∧ d'.table = d.table ∧
      ∀ name, Find N d' name = Find N d name := by
  have hwf : d.WF := run_wf N NUM ops d0 d (directory_wf size heap0 d0 h0).1 hrun
  obtain ⟨file', hw, hf⟩ :=
    fetchFrom_writeBack L d dNew file sizeJunk heap1 hwf hcw hcount hentries hfile
  exact ⟨file', d, hw, hf, rfl, rfl, fun _ => rfl⟩

/-- Witness of C8: `Add("foo.txt", 10)` and `Add("bar.txt", 20)` on
`Directory(4, true)`, written to a store of 96 bytes in records of 16 bytes. -/
theorem fetchFrom_after_writeBack_witness :
    Directory 4 true zeroHeap = .ok empty4 ∧ run 9 8 empty4 addFooBar = .ok dirFooBar ∧
    layout16.sizeofUnsigned ≤ layout16.sizeofEntry ∧ layout16.CountOK dirFooBar.tableSize ∧
    (∀ e ∈ dirFooBar.table, layout16.EntryOK e) ∧
    (dirFooBar.tableSize + 1) * layout16.sizeofEntry ≤ store96.bytes.length ∧
    ∃ file' d', WriteBack layout16 dirFooBar store96 = .ok file' ∧
      FetchFrom layout16 ⟨[], 1⟩ file' 7 staleHeap = .ok d' ∧
      d'.tableSize = dirFooBar.tableSize ∧ d'.table = dirFooBar.table ∧
      ∀ name, Find 9 d' name = Find 9 dirFooBar name :=
  ⟨by decide, by decide, by decide, by decide, by decide, by decide,
    fetchFrom_after_writeBack layout16 9 8 4 zeroHeap staleHeap addFooBar empty4 dirFooBar
      ⟨[], 1⟩ store96 7 (by decide) (by decide) (by decide) (by decide) (by decide)
      (by decide)⟩

/-- C9, evaluated where the code departs from it: on `Directory(1, true)`, after
`Add("a", 1)` and `Add("b", 2)` with `NUM_DIR_ENTRYS_SECTOR = 8`, the second
call growing the table into memory that held in-use entries named `b`, slots
1 and 2 are both in use under the name `b`: the slots a growth adds behind
the new entry are not marked free. -/
theorem add_growth_duplicate_names :
    Directory 1 true zeroHeap = .ok empty1 ∧ (∀ e ∈ empty1.table, e.inUse = false) ∧
    run 9 8 empty1 addAB = .ok dirAB ∧ dirAB.tableSize = 9 ∧
    (∃ e1 e2, dirAB.table[1]? = some e1 ∧ dirAB.table[2]? = some e2 ∧
      e1.inUse = true ∧ e2.inUse = true ∧ nameKey 9 e1.name = nameKey 9 e2.name) ∧
    ¬ InUseDistinct 9 dirAB.table := by
  refine ⟨by decide, by decide, by decide, by decide, ?_, ?_⟩
  · exact ⟨_, _, rfl, rfl, by decide, by decide, by decide⟩
  · intro h
    exact h 1 2 _ _ rfl rfl (by decide) (by decide) (by decide) (by decide)

/-- C10, counterexample: `Directory(3, true)` is accepted and has size 3, not a
multiple of a unit of 8; `FetchFrom` of a store whose count field is 0 yields
size 0, not a positive number. -/
theorem size_multiple_counterexample :
    (∃ d, Directory 3 true zeroHeap = .ok d ∧ d.tableSize = 3 ∧ ¬ (8 ∣ d.tableSize)) ∧
    (∃ d, FetchFrom layout16 empty1 store96 7 zeroHeap = .ok d ∧ d.tableSize = 0) := by
  constructor
  · exact ⟨_, rfl, by decide, by decide⟩
  · exact ⟨_, rfl, by decide⟩

/-- A call leaves the size as it was, or it is an `Add` and adds `NUM` to it. -/
theorem apply_size_exact (N NUM : Nat) (d d' : RawDirectory) (op : Op) (hwf : d.WF)
    (h : op.apply N NUM d = .ok d') :
    d'.tableSize = d.tableSize ∨ (op.isAdd = true ∧ d'.tableSize = d.tableSize + NUM) := by
  rcases apply_cases N NUM d d' op h with ⟨name, s, heap, b, hop, hr⟩ | ⟨name, b, _, hr⟩
  · rcases add_cases N NUM d name s heap hwf b d' hr with ⟨_, hd, _⟩ | ⟨_, _, i, e, _, hd⟩ |
      ⟨_, _, _, _, hd⟩
    · left; rw [hd]
    · left; rw [hd]
    · right; rw [hd, hop]; exact ⟨rfl, rfl⟩
  · rcases remove_cases N d name hwf b d' hr with ⟨_, hd, _⟩ | ⟨_, i, e, _, hd⟩
    · left; rw [hd]
    · left; rw [hd]

/-- A sequence of calls adds `NUM` to the size once per growth, and there are
no more growths than calls of `Add`. -/
theorem run_size (N NUM : Nat) : ∀ (ops : List Op) (d d' : RawDirectory), d.WF →
    run N NUM d ops = .ok d' →
    ∃ k, k ≤ ops.countP Op.isAdd ∧ d'.tableSize = d.tableSize + k * NUM := by
  intro ops
  induction ops with
  | nil =>
    intro d d' _ h
    simp only [run] at h
    injection h with h
    exact ⟨0, Nat.zero_le _, by rw [← h]; simp⟩
  | cons op ops ih =>
    intro d d' hwf h
    simp only [run] at h
    cases hr : op.apply N NUM d with
    | fault f => rw [hr] at h; cases h
    | ok d1 =>
      rw [hr] at h
      obtain ⟨k, hk, hsize⟩ := ih d1 d' (apply_wf N NUM d d1 op hwf hr) h
      rcases apply_size_exact N NUM d d1 op hwf hr with h1 | ⟨hadd, h1⟩
      · refine ⟨k, ?_, by rw [hsize, h1]⟩
        exact Nat.le_trans hk (List.countP_mono_left (fun _ _ h => h) |>.trans
          (by rw [List.countP_cons]; exact Nat.le_add_right _ _))
      · refine ⟨k + 1, ?_, ?_⟩
        · rw [List.countP_cons_of_pos _ _ hadd]
          omega
        · rw [hsize, h1, Nat.add_mul, Nat.one_mul]
          omega

/-- C10, amended: the constructor returns for every size above 0 with that
size, and `FetchFrom` returns with the stored count, whatever these values
are; `Add` adds exactly `NUM_DIR_ENTRYS_SECTOR` to the size when every slot is
in use and the name is absent, and leaves the size as it was otherwise;
`Remove` leaves the size as it was.  So when the size after initialization is
a positive multiple of `NUM_DIR_ENTRYS_SECTOR`, after every sequence of calls
it is that size plus `NUM_DIR_ENTRYS_SECTOR` times a number of growths, and a
positive multiple of `NUM_DIR_ENTRYS_SECTOR`. -/
theorem size_multiple_preserved (L : Layout) (N NUM : Nat) :
    (∀ (size : Nat) (init : Bool) (heap : Nat → DirectoryEntry), 0 < size →
      ∃ d, Directory size init heap = .ok d ∧ d.tableSize = size) ∧
    (∀ (dOld : RawDirectory) (file : OpenFile) (sizeJunk : Nat) (heap : Nat → DirectoryEntry),
      ∃ d, FetchFrom L dOld file sizeJunk heap = .ok d ∧ d.tableSize =
        L.unsignedOfBytes (file.ReadAt (L.unsignedBytes sizeJunk) L.sizeofUnsigned 0)) ∧
    (∀ (d : RawDirectory) (name : List Nat) (s : Int) (heap : Nat → DirectoryEntry),
      d.WF → 0 < NUM →
      ∃ b d', Add N NUM d name s heap = .ok (b, d') ∧
        (((∀ e ∈ d.table, e.inUse = true) ∧
            (∀ e ∈ d.table, e.inUse = true → nameKey N e.name ≠ nameKey N name)) →
          d'.tableSize = d.tableSize + NUM) ∧
        (¬ ((∀ e ∈ d.table, e.inUse = true) ∧
            (∀ e ∈ d.table, e.inUse = true → nameKey N e.name ≠ nameKey N name)) →
          d'.tableSize = d.tableSize)) ∧
    (∀ (d : RawDirectory) (name : List Nat), d.WF →
      ∃ b d', Remove N d name = .ok (b, d') ∧ d'.tableSize = d.tableSize) ∧
    (∀ (size : Nat) (heap : Nat → DirectoryEntry) (dOld d0 d : RawDirectory) (file : OpenFile)
        (sizeJunk : Nat) (ops : List Op),
      (Directory size true heap = .ok d0 ∨ FetchFrom L dOld file sizeJunk heap = .ok d0) →
      0 < d0.tableSize → NUM ∣ d0.tableSize → run N NUM d0 ops = .ok d →
      0 < d.tableSize ∧ NUM ∣ d.tableSize ∧
        ∃ k, k ≤ ops.countP Op.isAdd ∧ d.tableSize = d0.tableSize + k * NUM) := by
  refine ⟨?_, ?_, ?_, ?_, ?_⟩
  · intro size init heap hpos
    cases init with
    | true =>
      obtain ⟨d, h1, _, h3, _⟩ := directory_init size heap hpos
      exact ⟨d, h1, h3⟩
    | false =>
      have hne : size ≠ 0 := by omega
      exact ⟨{ table := [], tableSize := size }, by simp [Directory, hne], rfl⟩
  · intro dOld file sizeJunk heap
    exact ⟨_, rfl, rfl⟩
  · intro d name s heap hwf hNUM
    by_cases ha : Absent N d.table name
    · rcases firstFree_or_full d.table with ⟨i, e, hf⟩ | hfull
      · refine ⟨true, _, add_of_firstFree N NUM d name s heap hwf ha hf, ?_, fun _ => rfl⟩
        rintro ⟨hall, _⟩
        have := hall e (mem_of_get hf.1)
        rw [hf.2.1] at this
        cases this
      · refine ⟨true, _, add_of_full N NUM d name s heap hwf hNUM ha hfull, fun _ => rfl, ?_⟩
        intro hn
        exact absurd ⟨hfull, (absent_iff N _ _).mp ha⟩ hn
    · obtain ⟨j, e, hj⟩ := firstHit_of_not_absent N d name hwf ha
      refine ⟨false, d, add_of_firstHit N NUM d name s heap hwf hj, ?_, fun _ => rfl⟩
      rintro ⟨_, habs⟩
      exact absurd ((absent_iff N _ _).mpr habs) ha
  · intro d name hwf
    by_cases ha : Absent N d.table name
    · exact ⟨false, d, remove_of_absent N d name hwf ha, rfl⟩
    · obtain ⟨j, e, hj⟩ := firstHit_of_not_absent N d name hwf ha
      exact ⟨true, _, remove_of_firstHit N d name hwf hj, rfl⟩
  · intro size heap dOld d0 d file sizeJunk ops hstart hpos hdvd hrun
    have hwf : d0.WF := by
      rcases hstart with h | h
      · exact (directory_wf size heap d0 h).1
      · exact fetchFrom_wf L dOld d0 file sizeJunk heap h
    obtain ⟨k, hk, hsize⟩ := run_size N NUM ops d0 d hwf hrun
    refine ⟨by omega, ?_, k, hk, hsize⟩
    rw [hsize]
    exact Nat.dvd_add hdvd (Nat.dvd_mul_left NUM k)

/-- Witness of C10, amended: `Directory(8, true)` with a unit of 8; after nine
calls of `Add` the size is 16, one growth. -/
theorem size_multiple_preserved_witness :
    Directory 8 true zeroHeap = .ok ((Directory 8 true zeroHeap).getD empty1) ∧
    0 < ((Directory 8 true zeroHeap).getD empty1).tableSize ∧
    8 ∣ ((Directory 8 true zeroHeap).getD empty1).tableSize ∧
    run 9 8 ((Directory 8 true zeroHeap).getD empty1) addNine = .ok dirNine ∧
    dirNine.tableSize = 16 ∧
    (0 < dirNine.tableSize ∧ 8 ∣ dirNine.tableSize ∧
      ∃ k, k ≤ addNine.countP Op.isAdd ∧
        dirNine.tableSize = ((Directory 8 true zeroHeap).getD empty1).tableSize + k * 8) :=
  ⟨by decide, by decide, by decide, by decide, by decide,
    (size_multiple_preserved layout16 9 8).2.2.2.2 8 zeroHeap empty1
      ((Directory 8 true zeroHeap).getD empty1) dirNine store96 7 addNine
      (Or.inl (by decide)) (by decide) (by decide) (by decide)⟩

/-! ## Listing, lookup and construction -/

theorem takeWhile_append_of_mem (a b : List Nat) (h : 0 ∈ a) :
    (a ++ b).takeWhile (fun c => c != 0) = a.takeWhile (fun c => c != 0) := by
  induction a with
  | nil => cases h
  | cons x xs ih =>
    by_cases hx : x = 0
    · subst hx; simp
    · have hmem : 0 ∈ xs := by
        rcases List.mem_cons.mp h with h0 | h0
        · exact absurd h0.symm hx
        · exact h0
      simp [hx, ih hmem]

theorem image_drop (L : Layout) (t : List DirectoryEntry)
    (h : ∀ e ∈ t, (L.entryBytes e).length = L.sizeofEntry) :
    ∀ (i : Nat) (e : DirectoryEntry), t[i]? = some e →
      (L.image t).drop (i * L.sizeofEntry) = L.entryBytes e ++ L.image (t.drop (i + 1)) := by
  induction t with
  | nil =>
    intro i e he
    simp at he
  | cons x xs ih =>
    intro i e he
    have hx := h x (List.mem_cons_self x xs)
    rw [image_cons]
    cases i with
    | zero =>
      simp only [List.getElem?_cons_zero, Option.some.injEq] at he
      rw [Nat.zero_mul, List.drop_zero, he]
      rfl
    | succ i =>
      simp only [List.getElem?_cons_succ] at he
      have hidx : (i + 1) * L.sizeofEntry = (L.entryBytes x).length + i * L.sizeofEntry := by
        rw [hx, Nat.add_mul, Nat.one_mul, Nat.add_comm]
      rw [hidx, List.drop_append,
        ih (fun e' he' => h e' (List.mem_cons_of_mem x he')) i e he]
      rfl

/-- The line printed for an entry whose `name` array holds a NUL is the name. -/
theorem printString_name (L : Layout) (nameOffset : Nat) (t : List DirectoryEntry)
    (hlens : ∀ e ∈ t, (L.entryBytes e).length = L.sizeofEntry) (i : Nat) (e : DirectoryEntry)
    (he : t[i]? = some e) (hat : L.NameAt nameOffset e) (h0 : 0 ∈ e.name) :
    printString (L.image t) (i * L.sizeofEntry + nameOffset) = .ok e.cname := by
  obtain ⟨pre, post, hbytes, hpre⟩ := hat
  have hdrop : (L.image t).drop (i * L.sizeofEntry + nameOffset) =
      e.name ++ (post ++ L.image (t.drop (i + 1))) := by
    rw [← List.drop_drop, image_drop L t hlens i e he, hbytes, List.append_assoc,
      List.append_assoc, List.drop_left' hpre]
  have hmem : 0 ∈ e.name ++ (post ++ L.image (t.drop (i + 1))) :=
    List.mem_append_left _ h0
  simp only [printString, hdrop, hmem, if_true, takeWhile_append_of_mem _ _ h0,
    DirectoryEntry.cname]

theorem listLoop_spec (L : Layout) (nameOffset : Nat) (t : List DirectoryEntry)
    (hlens : ∀ e ∈ t, (L.entryBytes e).length = L.sizeofEntry)
    (hterm : ∀ e ∈ t, e.inUse = true → L.NameAt nameOffset e ∧ 0 ∈ e.name) :
    ∀ k i (out : List (List Nat)), i + k = t.length →
      Directory.List.loop L nameOffset k i t out =
        .ok (out ++ ((t.drop i).filter (fun e => e.inUse)).map DirectoryEntry.cname) := by
  intro k
  induction k with
  | zero =>
    intro i out hlen
    have : t.drop i = [] := List.drop_eq_nil_of_le (by omega)
    simp [Directory.List.loop, this]
  | succ k ih =>
    intro i out hlen
    have hi : i < t.length := by omega
    have hget : t[i]? = some t[i] := List.getElem?_eq_getElem hi
    have hdrop : t.drop i = t[i] :: t.drop (i + 1) := List.drop_eq_getElem_cons hi
    by_cases hu : (t[i]).inUse = true
    · have hti := hterm _ (List.getElem_mem hi) hu
      have hline := printString_name L nameOffset t hlens i _ hget hti.1 hti.2
      have hstep : Directory.List.loop L nameOffset (k + 1) i t out =
          Directory.List.loop L nameOffset k (i + 1) t (out ++ [(t[i]).cname]) := by
        simp [Directory.List.loop, hget, hu, hline]
      have hfil : (t.drop i).filter (fun e => e.inUse) =
          t[i] :: (t.drop (i + 1)).filter (fun e => e.inUse) := by
        rw [hdrop]
        exact List.filter_cons_of_pos hu
      rw [hstep, ih (i + 1) _ (by omega), hfil, List.map_cons, List.append_assoc,
        List.singleton_append]
    · have hf : (t[i]).inUse = false := by simpa using hu
      have hstep : Directory.List.loop L nameOffset (k + 1) i t out =
          Directory.List.loop L nameOffset k (i + 1) t out := by
        simp [Directory.List.loop, hget, hf]
      have hfil : (t.drop i).filter (fun e => e.inUse) =
          (t.drop (i + 1)).filter (fun e => e.inUse) := by
        rw [hdrop]
        exact List.filter_cons_of_neg hu
      rw [hstep, ih (i + 1) _ (by omega), hfil]

theorem cname_take (N : Nat) (e : DirectoryEntry) : e.cname.take N = nameKey N e.name := rfl

theorem pairwise_of_inUseDistinct (N : Nat) (t : List DirectoryEntry)
    (h : InUseDistinct N t) :
    t.Pairwise (fun a b => a.inUse = true → b.inUse = true →
      nameKey N a.name ≠ nameKey N b.name) := by
  rw [List.pairwise_iff_getElem]
  intro i j hi hj hij hui huj
  exact h i j _ _ (List.getElem?_eq_getElem hi) (List.getElem?_eq_getElem hj) (by omega) hui huj

theorem countP_eq_one_of_nodup (l : List (List Nat)) (a : List Nat) (hnd : l.Nodup)
    (ha : a ∈ l) : l.countP (fun x => decide (x = a)) = 1 := by
  induction l with
  | nil => cases ha
  | cons x xs ih =>
    have hx : x ∉ xs := (List.nodup_cons.mp hnd).1
    have hxs : xs.Nodup := (List.nodup_cons.mp hnd).2
    by_cases hxa : x = a
    · subst hxa
      have h0 : xs.countP (fun y => decide (y = x)) = 0 := by
        rw [List.countP_eq_zero]
        intro y hy
        simp only [decide_eq_true_eq]
        intro hyx
        exact hx (hyx ▸ hy)
      rw [List.countP_cons_of_pos _ _ (by simp), h0]
    · have hmem : a ∈ xs := by
        rcases List.mem_cons.mp ha with h | h
        · exact absurd h.symm hxa
        · exact h
      rw [List.countP_cons_of_neg _ _ (by simpa using hxa)]
      exact ih hxs hmem

/-- When the `name` array of every in-use entry holds a NUL, `List` prints one
line per in-use slot, in increasing slot index, the name of that slot, and
nothing for a free slot; with pairwise distinct in-use names each name is
printed exactly once. -/
theorem list_of_terminated_names (L : Layout) (nameOffset N : Nat) (d : RawDirectory)
    (hwf : d.WF) (hlens : ∀ e ∈ d.table, (L.entryBytes e).length = L.sizeofEntry)
    (hterm : ∀ e ∈ d.table, e.inUse = true → L.NameAt nameOffset e ∧ 0 ∈ e.name) :
    ∃ out, Directory.List L nameOffset d = .ok out ∧
      out = ((d.table.filter (fun e => e.inUse)).map DirectoryEntry.cname) ∧
      out.length = d.table.countP (fun e => e.inUse) ∧
      (∀ line, line ∈ out ↔ ∃ e ∈ d.table, e.inUse = true ∧ e.cname = line) ∧
      (∀ e ∈ d.table, e.cname.take N = nameKey N e.name) ∧
      (InUseDistinct N d.table →
        out.Nodup ∧ ∀ e ∈ d.table, e.inUse = true →
          out.countP (fun line => decide (line = e.cname)) = 1) := by
  have hrun : Directory.List L nameOffset d =
      .ok (((d.table.filter (fun e => e.inUse)).map DirectoryEntry.cname)) := by
    have := listLoop_spec L nameOffset d.table hlens hterm d.tableSize 0 []
      (by rw [hwf]; omega)
    simpa [Directory.List] using this
  have hmem : ∀ line, line ∈ (d.table.filter (fun e => e.inUse)).map DirectoryEntry.cname ↔
      ∃ e ∈ d.table, e.inUse = true ∧ e.cname = line := by
    intro line
    simp only [List.mem_map, List.mem_filter]
    constructor
    · rintro ⟨e, ⟨he, hu⟩, hl⟩
      exact ⟨e, he, hu, hl⟩
    · rintro ⟨e, he, hu, hl⟩
      exact ⟨e, ⟨he, hu⟩, hl⟩
  refine ⟨_, hrun, rfl, ?_, hmem, fun e _ => cname_take N e, ?_⟩
  · rw [List.length_map, List.countP_eq_length_filter]
  · intro hdist
    have hnd : ((d.table.filter (fun e => e.inUse)).map DirectoryEntry.cname).Nodup := by
      rw [List.Nodup, List.pairwise_map]
      have hp := (pairwise_of_inUseDistinct N d.table hdist).filter (fun e => e.inUse)
      refine hp.imp_of_mem ?_
      intro a b ha hb hR heq
      have hua : a.inUse = true := (List.mem_filter.mp ha).2
      have hub : b.inUse = true := (List.mem_filter.mp hb).2
      apply hR hua hub
      rw [← cname_take N a, ← cname_take N b, heq]
    refine ⟨hnd, ?_⟩
    intro e he hu
    exact countP_eq_one_of_nodup _ _ hnd ((hmem _).mpr ⟨e, he, hu, rfl⟩)

/-- C11, evaluated where the code departs from it: `Directory(1, true)` built
in memory filled with `0x5A`, then `Add("123456789", 7)`, a name of
`FILE_NAME_MAX_LEN = 9` bytes.  `strncpy` writes the 9 bytes and no NUL, so
the tenth byte of the array is still `0x5A`, and `List` prints 12 bytes for
the slot: the name, the tenth byte, the padding byte and the lowest byte of
the sector.  With zeroed padding it prints 10 bytes; in `dirFooBar`, whose
names are shorter, it prints the names. -/
theorem list_prints_past_name :
    Directory 1 true heap5A = .ok empty5A ∧
    Add 9 8 empty5A (cstr "123456789") 7 zeroHeap = .ok (true, dirLong) ∧
    dirLong.table = [{ inUse := true, name := cstr "123456789" ++ [90], sector := 7 }] ∧
    Find 9 dirLong (cstr "123456789") = .ok 7 ∧
    Directory.List layout16Z 1 dirLong = .ok [cstr "123456789" ++ [90, 90, 7]] ∧
    Directory.List layout16 1 dirLong = .ok [cstr "123456789" ++ [90]] ∧
    Directory.List layout16 1 dirFooBar = .ok [cstr "foo.txt", cstr "bar.txt"] :=
  ⟨by decide, by decide, by decide, by decide, by decide, by decide, by decide⟩

/-- C12: `Find` returns the sector stored in the slot whose index `FindIndex`
returns, and -1 when `FindIndex` returns -1; when no in-use entry stores the
sector -1, `Find` returns -1 exactly when no in-use entry agrees with the
name. -/
theorem find_sector_or_sentinel (N : Nat) (d : RawDirectory) (name : List Nat) (hwf : d.WF) :
    (∃ r, Find N d name = .ok r) ∧
    (∀ i : Nat, FindIndex N d name = .ok (i : Int) →
      ∃ e, d.table[i]? = some e ∧ Find N d name = .ok e.sector) ∧
    (FindIndex N d name = .ok (-1) → Find N d name = .ok (-1)) ∧
    ((∀ e ∈ d.table, e.inUse = true → e.sector ≠ -1) →
      (Find N d name = .ok (-1) ↔
        ∀ e ∈ d.table, e.inUse = true → nameKey N e.name ≠ nameKey N name)) := by
  rw [← absent_iff]
  rcases findIndex_cases N d name hwf with ⟨h1, ha⟩ | ⟨j, e, hj, hr⟩
  · have hf := find_of_absent N d name hwf ha
    refine ⟨⟨_, hf⟩, ?_, fun _ => hf, fun _ => ⟨fun _ => ha, fun _ => hf⟩⟩
    intro i hi
    rw [h1] at hi
    injection hi with hi
    omega
  · have hf := find_of_firstHit N d name hwf hj
    refine ⟨⟨_, hf⟩, ?_, ?_, ?_⟩
    · intro i hi
      rw [hr] at hi
      injection hi with hi
      have hij : j = i := by omega
      subst hij
      exact ⟨e, hj.1, hf⟩
    · intro h
      rw [hr] at h
      injection h with h
      omega
    · intro hsec
      constructor
      · intro h
        rw [hf] at h
        injection h with h
        exact absurd h (hsec e (mem_of_get hj.1) ((hit_iff N name e).mp hj.2.1).1)
      · intro ha
        exact absurd ha hj.not_absent

/-- Witness of C12: `Find("foo.txt")` and `Find("baz")` on `dirFooBar`. -/
theorem find_sector_or_sentinel_witness :
    dirFooBar.WF ∧ Find 9 dirFooBar (cstr "foo.txt") = .ok 10 ∧
    Find 9 dirFooBar (cstr "baz") = .ok (-1) ∧
    (∃ r, Find 9 dirFooBar (cstr "foo.txt") = .ok r) ∧
    (∀ i : Nat, FindIndex 9 dirFooBar (cstr "foo.txt") = .ok (i : Int) →
      ∃ e, dirFooBar.table[i]? = some e ∧ Find 9 dirFooBar (cstr "foo.txt") = .ok e.sector) ∧
    (FindIndex 9 dirFooBar (cstr "foo.txt") = .ok (-1) →
      Find 9 dirFooBar (cstr "foo.txt") = .ok (-1)) ∧
    ((∀ e ∈ dirFooBar.table, e.inUse = true → e.sector ≠ -1) →
      (Find 9 dirFooBar (cstr "foo.txt") = .ok (-1) ↔
        ∀ e ∈ dirFooBar.table, e.inUse = true →
          nameKey 9 e.name ≠ nameKey 9 (cstr "foo.txt"))) :=
  ⟨by decide, by decide, by decide,
    find_sector_or_sentinel 9 dirFooBar (cstr "foo.txt") (by decide)⟩

/-- C13: the constructor fails its assertion exactly when `size` is 0 and
returns otherwise; with `init` and `size > 0` it returns a table of exactly
`size` entries, all free, on which `FindIndex` and `Find` return -1 for every
name. -/
theorem directory_constructor (size : Nat) (init : Bool) (heap : Nat → DirectoryEntry) :
    (Directory size init heap = .fault .assertion ↔ size = 0) ∧
    (0 < size → ∃ d, Directory size init heap = .ok d ∧ d.tableSize = size) ∧
    (0 < size → ∃ d, Directory size true heap = .ok d ∧ d.tableSize = size ∧
      d.table.length = size ∧ (∀ e ∈ d.table, e.inUse = false) ∧
      ∀ N name, FindIndex N d name = .ok (-1) ∧ Find N d name = .ok (-1)) := by
  have hinit : 0 < size → ∃ d, Directory size true heap = .ok d ∧ d.tableSize = size ∧
      d.table.length = size ∧ (∀ e ∈ d.table, e.inUse = false) ∧
      ∀ N name, FindIndex N d name = .ok (-1) ∧ Find N d name = .ok (-1) := by
    intro hpos
    obtain ⟨d, h1, h2, h3, h4⟩ := directory_init size heap hpos
    refine ⟨d, h1, h3, h2.trans h3, h4, ?_⟩
    intro N name
    have ha : Absent N d.table name := by
      intro e he
      simp [DirectoryEntry.hit, h4 e he]
    exact ⟨findIndex_of_absent N d name h2 ha, find_of_absent N d name h2 ha⟩
  have hok : 0 < size → ∃ d, Directory size init heap = .ok d ∧ d.tableSize = size := by
    intro hpos
    cases init with
    | true =>
      obtain ⟨d, h1, h2, _⟩ := hinit hpos
      exact ⟨d, h1, h2⟩
    | false =>
      have hne : size ≠ 0 := by omega
      exact ⟨{ table := [], tableSize := size }, by simp [Directory, hne], rfl⟩
  refine ⟨?_, hok, hinit⟩
  constructor
  · intro h
    rcases Nat.eq_zero_or_pos size with h0 | hpos
    · exact h0
    · obtain ⟨d, hd, _⟩ := hok hpos
      rw [hd] at h
      cases h
  · intro h
    simp [Directory, h]

/-- Witness of C13: `Directory(4, true)` returns four free entries, and
`Directory(0, true)` fails its assertion. -/
theorem directory_constructor_witness :
    0 < 4 ∧ Directory 0 true staleHeap = .fault .assertion ∧
    (Directory 4 true staleHeap = .fault .assertion ↔ 4 = 0) ∧
    (∃ d, Directory 4 true staleHeap = .ok d ∧ d.tableSize = 4 ∧
      d.table.length = 4 ∧ (∀ e ∈ d.table, e.inUse = false) ∧
      ∀ N name, FindIndex N d name = .ok (-1) ∧ Find N d name = .ok (-1)) :=
  ⟨by decide, by decide, (directory_constructor 4 true staleHeap).1,
    (directory_constructor 4 true staleHeap).2.2 (by decide)⟩

/-! ## The stale comment of `Add`, `FindIndex` and `Remove` -/

/-- C14, counterexample: on the directory `full1`, in which every slot is in
use, `Add("b", 7)` returns true and the size becomes 9. -/
theorem add_full_counterexample :
    full1.WF ∧ full1.tableSize = 1 ∧ (∀ e ∈ full1.table, e.inUse = true) ∧
    ∃ d', Add 9 8 full1 (cstr "b") 7 zeroHeap = .ok (true, d') ∧ d'.tableSize = 9 :=
  ⟨by decide, by decide, by decide, _, rfl, by decide⟩

/-- C14, amended: `Add` returns false only when an in-use entry agrees with the
name; when every slot is in use and no entry agrees with the name it returns
true and the size grows by `NUM_DIR_ENTRYS_SECTOR`. -/
theorem add_false_iff_duplicate (N NUM : Nat) (d : RawDirectory) (name : List Nat) (s : Int)
    (heap : Nat → DirectoryEntry) (hwf : d.WF) (hNUM : 0 < NUM) :
    ∃ b d', Add N NUM d name s heap = .ok (b, d') ∧
      (b = false ↔ ∃ e ∈ d.table, e.inUse = true ∧ nameKey N e.name = nameKey N name) ∧
      ((∀ e ∈ d.table, e.inUse = true) →
        (∀ e ∈ d.table, nameKey N e.name ≠ nameKey N name) →
        b = true ∧ d'.tableSize = d.tableSize + NUM) := by
  rw [← not_absent_iff]
  by_cases ha : Absent N d.table name
  · rcases firstFree_or_full d.table with ⟨i, e, hf⟩ | hfull
    · refine ⟨true, _, add_of_firstFree N NUM d name s heap hwf ha hf, by simp [ha], ?_⟩
      intro hall _
      have := hall e (mem_of_get hf.1)
      rw [hf.2.1] at this
      cases this
    · exact ⟨true, _, add_of_full N NUM d name s heap hwf hNUM ha hfull, by simp [ha],
        fun _ _ => ⟨rfl, rfl⟩⟩
  · obtain ⟨j, e, hj⟩ := firstHit_of_not_absent N d name hwf ha
    refine ⟨false, d, add_of_firstHit N NUM d name s heap hwf hj, by simp [ha], ?_⟩
    intro hall hne
    have he := (hit_iff N name e).mp hj.2.1
    exact absurd he.2 (hne e (mem_of_get hj.1))

/-- Witness of C14, amended: `Add("b", 7)` on the full directory `full1`. -/
theorem add_false_iff_duplicate_witness :
    full1.WF ∧ 0 < 8 ∧
    ∃ b d', Add 9 8 full1 (cstr "b") 7 zeroHeap = .ok (b, d') ∧
      (b = false ↔
        ∃ e ∈ full1.table, e.inUse = true ∧ nameKey 9 e.name = nameKey 9 (cstr "b")) ∧
      ((∀ e ∈ full1.table, e.inUse = true) →
        (∀ e ∈ full1.table, nameKey 9 e.name ≠ nameKey 9 (cstr "b")) →
        b = true ∧ d'.tableSize = full1.tableSize + 8) :=
  ⟨by decide, by decide,
    add_false_iff_duplicate 9 8 full1 (cstr "b") 7 zeroHeap (by decide) (by decide)⟩

/-- The result of `FindIndex` only depends on which entries the name hits. -/
theorem findIndex_congr (N N' : Nat) (d d' : RawDirectory) (name name' : List Nat)
    (hwf : d.WF) (hwf' : d'.WF) (hsize : d'.tableSize = d.tableSize)
    (h : ∀ (i : Nat) (e e' : DirectoryEntry), d.table[i]? = some e → d'.table[i]? = some e' →
      e'.hit N' name' = e.hit N name) :
    FindIndex N' d' name' = FindIndex N d name := by
  have hlen : d'.table.length = d.table.length := by rw [hwf, hwf', hsize]
  have hback : ∀ (i : Nat) (e' : DirectoryEntry), d'.table[i]? = some e' →
      ∃ e, d.table[i]? = some e := by
    intro i e' he'
    have hi : i < d.table.length := hlen ▸ (List.getElem?_eq_some_iff.mp he').1
    exact ⟨_, List.getElem?_eq_getElem hi⟩
  have hforth : ∀ (i : Nat) (e : DirectoryEntry), d.table[i]? = some e →
      ∃ e', d'.table[i]? = some e' := by
    intro i e he
    have hi : i < d'.table.length := hlen ▸ (List.getElem?_eq_some_iff.mp he).1
    exact ⟨_, List.getElem?_eq_getElem hi⟩
  rcases findIndex_cases N d name hwf with ⟨h1, ha⟩ | ⟨j, e, hj, hr⟩
  · rw [h1]
    apply findIndex_of_absent N' d' name' hwf'
    intro e' he'
    obtain ⟨i, hi, hie⟩ := List.getElem_of_mem he'
    have hget : d'.table[i]? = some e' := by rw [List.getElem?_eq_getElem hi, hie]
    obtain ⟨e, he⟩ := hback i e' hget
    rw [h i e e' he hget]
    exact ha e (mem_of_get he)
  · rw [hr]
    obtain ⟨e', he'⟩ := hforth j e hj.1
    apply findIndex_of_firstHit N' d' name' hwf'
    refine ⟨he', by rw [h j e e' hj.1 he']; exact hj.2.1, ?_⟩
    intro k ek' hk hek'
    obtain ⟨ek, hek⟩ := hback k ek' hek'
    rw [h k ek ek' hek hek']
    exact hj.2.2 k ek hk hek

/-- C16: `FindIndex` returns an index below the size whose entry is in use and
agrees with the name on the first `FILE_NAME_MAX_LEN` bytes, no in-use entry
before it agreeing, or it returns -1, exactly when no in-use entry agrees; the
names that free entries carry do not change its result. -/
theorem findIndex_first_match (N : Nat) (d : RawDirectory) (name : List Nat) (hwf : d.WF) :
    ((∃ i e, i < d.tableSize ∧ FindIndex N d name = .ok (i : Int) ∧ d.table[i]? = some e ∧
        e.inUse = true ∧ nameKey N e.name = nameKey N name ∧
        ∀ j e', j < i → d.table[j]? = some e' →
          ¬ (e'.inUse = true ∧ nameKey N e'.name = nameKey N name)) ∨
      FindIndex N d name = .ok (-1)) ∧
    (FindIndex N d name = .ok (-1) ↔
      ∀ e ∈ d.table, e.inUse = true → nameKey N e.name ≠ nameKey N name) ∧
    (∀ d', d'.WF → d'.tableSize = d.tableSize →
      (∀ (i : Nat) (e e' : DirectoryEntry), d.table[i]? = some e → d'.table[i]? = some e' →
        e'.inUse = e.inUse ∧ (e.inUse = true → e'.name = e.name)) →
      FindIndex N d' name = FindIndex N d name) := by
  refine ⟨?_, ?_, ?_⟩
  · rcases findIndex_cases N d name hwf with ⟨h1, _⟩ | ⟨j, e, hj, hr⟩
    · exact Or.inr h1
    · left
      have he := (hit_iff N name e).mp hj.2.1
      refine ⟨j, e, hwf ▸ hj.lt, hr, hj.1, he.1, he.2, ?_⟩
      intro k e' hk hke' hboth
      have := hj.2.2 k e' hk hke'
      rw [(hit_iff N name e').mpr hboth] at this
      cases this
  · rw [← absent_iff]
    exact findIndex_eq_neg_one_iff N d name hwf
  · intro d' hwf' hsize hrel
    apply findIndex_congr N N d d' name name hwf hwf' hsize
    intro i e e' he he'
    obtain ⟨hu, hn⟩ := hrel i e e' he he'
    cases hue : e.inUse with
    | false =>
      rw [hue] at hu
      simp [DirectoryEntry.hit, hu, hue]
    | true =>
      rw [hue] at hu
      simp [DirectoryEntry.hit, hu, hue, hn hue]

/-- Witness of C16: `FindIndex("bar.txt")` on `dirFooBar` is 1. -/
theorem findIndex_first_match_witness :
    dirFooBar.WF ∧ FindIndex 9 dirFooBar (cstr "bar.txt") = .ok 1 ∧
    ((∃ i e, i < dirFooBar.tableSize ∧
        FindIndex 9 dirFooBar (cstr "bar.txt") = .ok (i : Int) ∧
        dirFooBar.table[i]? = some e ∧
        e.inUse = true ∧ nameKey 9 e.name = nameKey 9 (cstr "bar.txt") ∧
        ∀ j e', j < i → dirFooBar.table[j]? = some e' →
          ¬ (e'.inUse = true ∧ nameKey 9 e'.name = nameKey 9 (cstr "bar.txt"))) ∨
      FindIndex 9 dirFooBar (cstr "bar.txt") = .ok (-1)) :=
  ⟨by decide, by decide, (findIndex_first_match 9 dirFooBar (cstr "bar.txt") (by decide)).1⟩

/-- C17: when an in-use entry agrees with the name, `Remove` returns true and
only clears the `inUse` flag of the slot `FindIndex` returns: the size is the
same, the slot keeps its name and sector, every other entry is unchanged. -/
theorem remove_clears_flag_only (N : Nat) (d : RawDirectory) (name : List Nat) (hwf : d.WF)
    (hpres : ∃ e ∈ d.table, e.inUse = true ∧ nameKey N e.name = nameKey N name) :
    ∃ (d' : RawDirectory) (i : Nat) (e : DirectoryEntry), Remove N d name = .ok (true, d') ∧ FindIndex N d name = .ok (i : Int) ∧
      d.table[i]? = some e ∧ e.inUse = true ∧
      d'.tableSize = d.tableSize ∧ d'.table.length = d.table.length ∧
      d'.table[i]? = some { inUse := false, name := e.name, sector := e.sector } ∧
      ∀ j, j ≠ i → d'.table[j]? = d.table[j]? := by
  obtain ⟨j, e, hj⟩ := firstHit_of_not_absent N d name hwf ((not_absent_iff N _ _).mpr hpres)
  have hjlt : j < d.table.length := hj.lt
  refine ⟨_, j, e, remove_of_firstHit N d name hwf hj, findIndex_of_firstHit N d name hwf hj,
    hj.1, ((hit_iff N name e).mp hj.2.1).1, rfl, by simp, by simp [hjlt], ?_⟩
  intro k hk
  exact List.getElem?_set_ne (fun h => hk h.symm)

/-- Witness of C17: `Remove("bar.txt")` on `dirFooBar`. -/
theorem remove_clears_flag_only_witness :
    dirFooBar.WF ∧
    (∃ e ∈ dirFooBar.table, e.inUse = true ∧ nameKey 9 e.name = nameKey 9 (cstr "bar.txt")) ∧
    ∃ (d' : RawDirectory) (i : Nat) (e : DirectoryEntry), Remove 9 dirFooBar (cstr "bar.txt") = .ok (true, d') ∧
      FindIndex 9 dirFooBar (cstr "bar.txt") = .ok (i : Int) ∧
      dirFooBar.table[i]? = some e ∧ e.inUse = true ∧
      d'.tableSize = dirFooBar.tableSize ∧ d'.table.length = dirFooBar.table.length ∧
      d'.table[i]? = some { inUse := false, name := e.name, sector := e.sector } ∧
      ∀ j, j ≠ i → d'.table[j]? = dirFooBar.table[j]? :=
  ⟨by decide, by decide,
    remove_clears_flag_only 9 dirFooBar (cstr "bar.txt") (by decide) (by decide)⟩

/-! ## The image on the store -/

/-- The bytes of the store after a write that the store holds entirely. -/
theorem writeAt_bytes (file : OpenFile) (src : List Nat) (n p : Nat)
    (hsrc : src.length = n) (hfit : p + n ≤ file.bytes.length) :
    (file.WriteAt src n p).bytes =
      file.bytes.take p ++ src ++ file.bytes.drop (p + n) := by
  unfold OpenFile.WriteAt
  split
  · have hn : n = 0 := by omega
    subst hn
    have hnil : src = [] := List.eq_nil_of_length_eq_zero hsrc
    have hp : p = file.bytes.length := by omega
    rw [hnil, hp]
    simp
  · have hsrc' : src.take n = src := List.take_of_length_le (by omega)
    have hput : (src.take n).take (file.bytes.length - p) = src := by
      rw [hsrc', List.take_of_length_le (by omega)]
    simp only [hput, hsrc]

theorem writeAt_get_before (file : OpenFile) (src : List Nat) (n p k : Nat)
    (hsrc : src.length = n) (hfit : p + n ≤ file.bytes.length) (hk : k < p) :
    (file.WriteAt src n p).bytes[k]? = file.bytes[k]? := by
  rw [writeAt_bytes file src n p hsrc hfit, List.append_assoc,
    List.getElem?_append_left (by simp; omega), List.getElem?_take_of_lt hk]

theorem writeAt_get_after (file : OpenFile) (src : List Nat) (n p k : Nat)
    (hsrc : src.length = n) (hfit : p + n ≤ file.bytes.length) (hk : p + n ≤ k) :
    (file.WriteAt src n p).bytes[k]? = file.bytes[k]? := by
  have hlen : (file.bytes.take p ++ src).length = p + n := by
    simp [hsrc]; omega
  rw [writeAt_bytes file src n p hsrc hfit, List.getElem?_append_right (by omega), hlen,
    List.getElem?_drop]
  congr 1
  omega

theorem writeAt_get_inside (file : OpenFile) (src : List Nat) (n p j : Nat)
    (hsrc : src.length = n) (hfit : p + n ≤ file.bytes.length) (hj : j < n) :
    (file.WriteAt src n p).bytes[p + j]? = src[j]? := by
  have hlen : (file.bytes.take p).length = p := by simp; omega
  rw [writeAt_bytes file src n p hsrc hfit, List.append_assoc,
    List.getElem?_append_right (by omega), hlen,
    List.getElem?_append_left (by omega)]
  congr 1
  omega

/-- A read that the store holds entirely yields the bytes of the store. -/
theorem readAt_full (file : OpenFile) (into : List Nat) (n p : Nat)
    (hfit : p + n ≤ file.bytes.length) :
    file.ReadAt into n p = (file.bytes.drop p).take n := by
  unfold OpenFile.ReadAt
  have hgot : ((file.bytes.drop p).take n).length = n := by simp; omega
  have hrest : (into.take n).drop n = [] := List.drop_of_length_le (by simp)
  simp only [hgot, hrest, List.append_nil]

theorem image_get (L : Layout) (t : List DirectoryEntry)
    (h : ∀ e ∈ t, (L.entryBytes e).length = L.sizeofEntry) :
    ∀ (i j : Nat) (e : DirectoryEntry), t[i]? = some e → j < L.sizeofEntry →
      (L.image t)[i * L.sizeofEntry + j]? = (L.entryBytes e)[j]? := by
  induction t with
  | nil =>
    intro i j e he
    simp at he
  | cons x xs ih =>
    intro i j e he hj
    have hx := h x (List.mem_cons_self x xs)
    rw [image_cons]
    cases i with
    | zero =>
      simp only [List.getElem?_cons_zero, Option.some.injEq] at he
      rw [Nat.zero_mul, Nat.zero_add, List.getElem?_append_left (by omega), he]
    | succ i =>
      simp only [List.getElem?_cons_succ] at he
      have hidx : (i + 1) * L.sizeofEntry + j - (L.entryBytes x).length =
          i * L.sizeofEntry + j := by
        rw [hx, Nat.add_mul, Nat.one_mul]
        omega
      rw [List.getElem?_append_right (by rw [hx, Nat.add_mul, Nat.one_mul]; omega), hidx]
      exact ih (fun e' he' => h e' (List.mem_cons_of_mem x he')) i j e he hj

theorem chunks_get (w : Nat) : ∀ (n i : Nat) (bs : List Nat), i < n →
    (chunks w n bs)[i]? = some ((bs.drop (i * w)).take w) := by
  intro n
  induction n with
  | zero => intro i bs hi; omega
  | succ n ih =>
    intro i bs hi
    cases i with
    | zero => simp [chunks]
    | succ i =>
      rw [chunks, List.getElem?_cons_succ, ih i (bs.drop w) (by omega), List.drop_drop]
      congr 3
      rw [Nat.add_mul, Nat.one_mul, Nat.add_comm]

/-- C15: `WriteBack` writes the bytes of the count at offset 0 and the bytes
of entry `i` at offset `(i + 1) * sizeof(DirectoryEntry)`, and no other byte
of the store: those between the count and the first record, and those after
the last record, keep their value.  `FetchFrom` takes the count from offset 0
and entry `i` from offset `(i + 1) * sizeof(DirectoryEntry)`. -/
theorem writeBack_layout (L : Layout) (d : RawDirectory) (file : OpenFile) (hwf : d.WF)
    (hcw : L.sizeofUnsigned ≤ L.sizeofEntry)
    (hcount : (L.unsignedBytes d.tableSize).length = L.sizeofUnsigned)
    (hentries : ∀ e ∈ d.table, (L.entryBytes e).length = L.sizeofEntry)
    (hfile : (d.tableSize + 1) * L.sizeofEntry ≤ file.bytes.length) :
    (∃ file', WriteBack L d file = .ok file' ∧
      file'.bytes.length = file.bytes.length ∧
      file'.bytes.take L.sizeofUnsigned = L.unsignedBytes d.tableSize ∧
      (∀ (i : Nat) (e : DirectoryEntry), d.table[i]? = some e →
        (file'.bytes.drop ((i + 1) * L.sizeofEntry)).take L.sizeofEntry = L.entryBytes e) ∧
      (∀ k, L.sizeofUnsigned ≤ k → k < L.sizeofEntry → file'.bytes[k]? = file.bytes[k]?) ∧
      (∀ k, (d.tableSize + 1) * L.sizeofEntry ≤ k → file'.bytes[k]? = file.bytes[k]?)) ∧
    (∀ (f : OpenFile) (dOld : RawDirectory) (sizeJunk : Nat) (heap : Nat → DirectoryEntry),
      L.sizeofUnsigned ≤ f.bytes.length →
      (L.unsignedOfBytes (f.bytes.take L.sizeofUnsigned) + 1) * L.sizeofEntry ≤
        f.bytes.length →
      ∃ d', FetchFrom L dOld f sizeJunk heap = .ok d' ∧
        d'.tableSize = L.unsignedOfBytes (f.bytes.take L.sizeofUnsigned) ∧
        d'.table.length = d'.tableSize ∧
        ∀ i, i < d'.tableSize → d'.table[i]? =
          some (L.entryOfBytes ((f.bytes.drop ((i + 1) * L.sizeofEntry)).take L.sizeofEntry))) := by
  have hlen : d.table.length = d.tableSize := hwf
  have htake : d.table.take d.tableSize = d.table := by rw [← hlen, List.take_length]
  have himg : (L.image d.table).length = d.tableSize * L.sizeofEntry := by
    rw [image_length L d.table hentries, hlen]
  have hmul : (d.tableSize + 1) * L.sizeofEntry =
      L.sizeofEntry + d.tableSize * L.sizeofEntry := by
    rw [Nat.add_mul, Nat.one_mul, Nat.add_comm]
  have hfit1 : 0 + L.sizeofUnsigned ≤ file.bytes.length := by omega
  have hlen1 : (file.WriteAt (L.unsignedBytes d.tableSize) L.sizeofUnsigned 0).bytes.length =
      file.bytes.length := length_writeAt _ _ _ _
  have hfit2 : L.sizeofEntry + d.tableSize * L.sizeofEntry ≤
      (file.WriteAt (L.unsignedBytes d.tableSize) L.sizeofUnsigned 0).bytes.length := by
    rw [hlen1]; omega
  constructor
  · refine ⟨(file.WriteAt (L.unsignedBytes d.tableSize) L.sizeofUnsigned 0).WriteAt
        (L.image d.table) (d.tableSize * L.sizeofEntry) L.sizeofEntry, ?_, ?_, ?_, ?_, ?_, ?_⟩
    · simp [WriteBack, hlen, htake]
    · rw [length_writeAt, length_writeAt]
    · apply List.ext_getElem?
      intro k
      by_cases hk : k < L.sizeofUnsigned
      · rw [List.getElem?_take_of_lt hk,
          writeAt_get_before _ _ _ _ k himg hfit2 (by omega)]
        have := writeAt_get_inside file (L.unsignedBytes d.tableSize) L.sizeofUnsigned 0 k
          hcount hfit1 hk
        rw [Nat.zero_add] at this
        exact this
      · rw [List.getElem?_eq_none (by simp; omega), List.getElem?_eq_none (by omega)]
    · intro i e hie
      have hi : i < d.tableSize := hlen ▸ (List.getElem?_eq_some_iff.mp hie).1
      have hile : (i + 1) * L.sizeofEntry ≤ d.tableSize * L.sizeofEntry :=
        Nat.mul_le_mul_right _ hi
      have himul : (i + 1) * L.sizeofEntry = L.sizeofEntry + i * L.sizeofEntry := by
        rw [Nat.add_mul, Nat.one_mul, Nat.add_comm]
      apply List.ext_getElem?
      intro j
      by_cases hj : j < L.sizeofEntry
      · rw [List.getElem?_take_of_lt hj, List.getElem?_drop]
        have hidx : (i + 1) * L.sizeofEntry + j = L.sizeofEntry + (i * L.sizeofEntry + j) := by
          omega
        rw [hidx, writeAt_get_inside _ _ _ _ _ himg hfit2 (by omega)]
        exact image_get L d.table hentries i j e hie hj
      · rw [List.getElem?_eq_none (by simp; omega),
          List.getElem?_eq_none (by rw [hentries e (mem_of_get hie)]; omega)]
    · intro k hk1 hk2
      rw [writeAt_get_before _ _ _ _ k himg hfit2 hk2]
      exact writeAt_get_after file _ _ 0 k hcount hfit1 (by omega)
    · intro k hk
      rw [writeAt_get_after _ _ _ _ k himg hfit2 (by omega)]
      exact writeAt_get_after file _ _ 0 k hcount hfit1 (by omega)
  · intro f dOld sizeJunk heap hf1 hf2
    have hr1 : f.ReadAt (L.unsignedBytes sizeJunk) L.sizeofUnsigned 0 =
        f.bytes.take L.sizeofUnsigned := by
      rw [readAt_full f _ _ 0 (by omega), List.drop_zero]
    have hsmul : (L.unsignedOfBytes (f.bytes.take L.sizeofUnsigned) + 1) * L.sizeofEntry =
        L.sizeofEntry + L.unsignedOfBytes (f.bytes.take L.sizeofUnsigned) * L.sizeofEntry := by
      rw [Nat.add_mul, Nat.one_mul, Nat.add_comm]
    refine ⟨_, rfl, ?_, ?_, ?_⟩
    · simp only [hr1]
    · simp [chunks_length]
    · intro i hi
      simp only [hr1] at hi ⊢
      have hile : (i + 1) * L.sizeofEntry ≤
          L.unsignedOfBytes (f.bytes.take L.sizeofUnsigned) * L.sizeofEntry :=
        Nat.mul_le_mul_right _ hi
      have himul : (i + 1) * L.sizeofEntry = L.sizeofEntry + i * L.sizeofEntry := by
        rw [Nat.add_mul, Nat.one_mul, Nat.add_comm]
      rw [List.getElem?_map, chunks_get _ _ _ _ hi, readAt_full f _ _ _ (by omega)]
      simp only [Option.map_some']
      congr 2
      apply List.ext_getElem?
      intro j
      by_cases hj : j < L.sizeofEntry
      · rw [List.getElem?_take_of_lt hj, List.getElem?_take_of_lt hj, List.getElem?_drop,
          List.getElem?_take_of_lt (by omega), List.getElem?_drop, List.getElem?_drop]
        congr 1
        omega
      · rw [List.getElem?_eq_none (by simp; omega), List.getElem?_eq_none (by simp; omega)]

/-- Witness of C15: `WriteBack` of `dirFooBar` to a store of 96 bytes in
records of 16 bytes. -/
theorem writeBack_layout_witness :
    dirFooBar.WF ∧ layout16.sizeofUnsigned ≤ layout16.sizeofEntry ∧
    (layout16.unsignedBytes dirFooBar.tableSize).length = layout16.sizeofUnsigned ∧
    (∀ e ∈ dirFooBar.table, (layout16.entryBytes e).length = layout16.sizeofEntry) ∧
    (dirFooBar.tableSize + 1) * layout16.sizeofEntry ≤ store96.bytes.length ∧
    ∃ file', WriteBack layout16 dirFooBar store96 = .ok file' ∧
      file'.bytes.length = store96.bytes.length ∧
      file'.bytes.take layout16.sizeofUnsigned = layout16.unsignedBytes dirFooBar.tableSize ∧
      (∀ (i : Nat) (e : DirectoryEntry), dirFooBar.table[i]? = some e →
        (file'.bytes.drop ((i + 1) * layout16.sizeofEntry)).take layout16.sizeofEntry =
          layout16.entryBytes e) ∧
      (∀ k, layout16.sizeofUnsigned ≤ k → k < layout16.sizeofEntry →
        file'.bytes[k]? = store96.bytes[k]?) ∧
      (∀ k, (dirFooBar.tableSize + 1) * layout16.sizeofEntry ≤ k →
        file'.bytes[k]? = store96.bytes[k]?) :=
  ⟨by decide, by decide, by decide, by decide, by decide,
    (writeBack_layout layout16 dirFooBar store96 (by decide) (by decide) (by decide)
      (by decide) (by decide)).1⟩

/-! ## Long names, new slots and other names -/

theorem strncpy_long : ∀ (N : Nat) (dst name : List Nat), N ≤ name.length →
    (∀ c ∈ name.take N, c ≠ 0) → strncpy dst name N = name.take N ++ dst.drop N := by
  intro N
  induction N with
  | zero => intro dst name _ _; simp [strncpy]
  | succ N ih =>
    intro dst name hlen hnz
    cases name with
    | nil => simp at hlen
    | cons c cs =>
      have hc : c ≠ 0 := hnz c (by simp)
      have hcs : ∀ x ∈ cs.take N, x ≠ 0 := fun x hx => hnz x (by simp [hx])
      have hlen' : N ≤ cs.length := by simpa using hlen
      have htail : dst.tail.drop N = dst.drop (N + 1) := by
        cases dst with
        | nil => simp
        | cons x xs => simp
      simp [strncpy, hc, ih dst.tail cs hlen' hcs, htail]

theorem nameKey_of_nonzero : ∀ (N : Nat) (s : List Nat), (∀ c ∈ s.take N, c ≠ 0) →
    nameKey N s = s.take N := by
  intro N
  induction N with
  | zero => intro s _; simp [nameKey]
  | succ N ih =>
    intro s hnz
    cases s with
    | nil => simp [nameKey]
    | cons c cs =>
      have hc : c ≠ 0 := hnz c (by simp)
      have hcs : ∀ x ∈ cs.take N, x ≠ 0 := fun x hx => hnz x (by simp [hx])
      have := ih cs hcs
      unfold nameKey at this ⊢
      simp [hc, this]

/-- `Add` of an absent name: the slot it fills and what the slot held. -/
theorem add_of_absent (N NUM : Nat) (d : RawDirectory) (name : List Nat) (L : Int)
    (heap : Nat → DirectoryEntry) (hwf : d.WF) (hNUM : 0 < NUM)
    (ha : Absent N d.table name) :
    ∃ (d' : RawDirectory) (i : Nat) (old : DirectoryEntry),
      Add N NUM d name L heap = .ok (true, d') ∧ d'.WF ∧
      FirstHit N d'.table name i (old.fill N name L) ∧
      (d.table[i]? = some old ∨ (i = d.tableSize ∧ old = heap i)) := by
  rcases firstFree_or_full d.table with ⟨i, e, hf⟩ | hfull
  · have hwf' : RawDirectory.WF { d with table := d.table.set i (e.fill N name L) } := by
      simpa [RawDirectory.WF] using hwf
    have hi : i < d.table.length := (List.getElem?_eq_some_iff.mp hf.1).1
    refine ⟨_, i, e, add_of_firstFree N NUM d name L heap hwf ha hf, hwf', ?_, Or.inl hf.1⟩
    refine ⟨by simp [hi], hit_fill N name L e, ?_⟩
    intro j e' hj hje
    rw [List.getElem?_set_ne (by omega)] at hje
    exact ha e' (mem_of_get hje)
  · have hwf' : RawDirectory.WF
        { table := grownTable N NUM d name L heap, tableSize := d.tableSize + NUM } :=
      grownTable_length N NUM d name L heap hwf
    refine ⟨_, d.tableSize, heap d.tableSize, add_of_full N NUM d name L heap hwf hNUM ha hfull,
      hwf', ?_, Or.inr ⟨rfl, rfl⟩⟩
    refine ⟨grownTable_new N NUM d name L heap hwf hNUM, hit_fill N name L _, ?_⟩
    intro j e' hj hje
    rw [grownTable_old N NUM d name L heap hwf j hj] at hje
    exact ha e' (mem_of_get hje)

/-- Two names with the same compared bytes have the same first hit. -/
theorem FirstHit.congr_name {N : Nat} {t : List DirectoryEntry} {a b : List Nat} {i : Nat}
    {e : DirectoryEntry} (h : FirstHit N t a i e) (hab : nameKey N a = nameKey N b) :
    FirstHit N t b i e := by
  refine ⟨h.1, by rw [← hit_congr N a b hab]; exact h.2.1, ?_⟩
  intro j e' hj hje
  rw [← hit_congr N a b hab]
  exact h.2.2 j e' hj hje

/-- C18: `Add` of a name of more than `FILE_NAME_MAX_LEN` bytes whose first
`FILE_NAME_MAX_LEN` bytes no in-use entry carries returns true and writes
only those bytes into the slot, the rest of the array keeping what it held;
afterwards `Find` of every name with the same first `FILE_NAME_MAX_LEN` bytes
returns the stored sector and `Add` of it returns false. -/
theorem add_truncates_long_name (N NUM : Nat) (d : RawDirectory) (name : List Nat) (L : Int)
    (heap : Nat → DirectoryEntry) (hwf : d.WF) (hNUM : 0 < NUM)
    (hlong : N < name.length) (hnz : ∀ c ∈ name, c ≠ 0)
    (habs : ∀ e ∈ d.table, e.inUse = true → nameKey N e.name ≠ name.take N) :
    ∃ (d' : RawDirectory) (i : Nat) (e old : DirectoryEntry),
      Add N NUM d name L heap = .ok (true, d') ∧ d'.table[i]? = some e ∧
      (d.table[i]? = some old ∨ (i = d.tableSize ∧ old = heap i)) ∧
      e.inUse = true ∧ e.sector = L ∧ e.name = name.take N ++ old.name.drop N ∧
      ∀ other, other.take N = name.take N →
        Find N d' other = .ok L ∧
        ∀ L' heap', Add N NUM d' other L' heap' = .ok (false, d') := by
  have hnzN : ∀ c ∈ name.take N, c ≠ 0 := fun c hc => hnz c (List.mem_of_mem_take hc)
  have hkey : nameKey N name = name.take N := nameKey_of_nonzero N name hnzN
  have ha : Absent N d.table name := by
    rw [absent_iff, hkey]
    exact habs
  obtain ⟨d', i, old, hadd, hwf', hfh, hold⟩ := add_of_absent N NUM d name L heap hwf hNUM ha
  refine ⟨d', i, old.fill N name L, old, hadd, hfh.1, hold, rfl, rfl, ?_, ?_⟩
  · exact strncpy_long N old.name name (by omega) hnzN
  · intro other hother
    have hko : nameKey N name = nameKey N other := by
      rw [hkey, nameKey_of_nonzero N other (by rw [hother]; exact hnzN), hother]
    have hfo : FirstHit N d'.table other i (old.fill N name L) := hfh.congr_name hko
    exact ⟨find_of_firstHit N d' other hwf' hfo,
      fun L' heap' => add_of_firstHit N NUM d' other L' heap' hwf' hfo⟩

/-- Witness of C18: `Add("0123456789abc", 5)` on `dirFoo`, with names of 9
bytes. -/
theorem add_truncates_long_name_witness :
    dirFoo.WF ∧ 0 < 8 ∧ 9 < (cstr "0123456789abc").length ∧
    (∀ c ∈ cstr "0123456789abc", c ≠ 0) ∧
    (∀ e ∈ dirFoo.table, e.inUse = true →
      nameKey 9 e.name ≠ (cstr "0123456789abc").take 9) ∧
    Find 9 ((Add 9 8 dirFoo (cstr "0123456789abc") 5 zeroHeap).getD (false, dirFoo)).2
      (cstr "012345678") = .ok 5 ∧
    ∃ (d' : RawDirectory) (i : Nat) (e old : DirectoryEntry),
      Add 9 8 dirFoo (cstr "0123456789abc") 5 zeroHeap = .ok (true, d') ∧
      d'.table[i]? = some e ∧
      (dirFoo.table[i]? = some old ∨ (i = dirFoo.tableSize ∧ old = zeroHeap i)) ∧
      e.inUse = true ∧ e.sector = 5 ∧
      e.name = (cstr "0123456789abc").take 9 ++ old.name.drop 9 ∧
      ∀ other, other.take 9 = (cstr "0123456789abc").take 9 →
        Find 9 d' other = .ok 5 ∧
        ∀ L' heap', Add 9 8 d' other L' heap' = .ok (false, d') :=
  ⟨by decide, by decide, by decide, by decide, by decide, by decide,
    add_truncates_long_name 9 8 dirFoo (cstr "0123456789abc") 5 zeroHeap (by decide)
      (by decide) (by decide) (by decide) (by decide)⟩

/-- C19, evaluated where the code departs from it: after the calls `addAB` on
`Directory(1, true)` the table has grown from 1 to 9 entries into memory that
held in-use entries; the new slots 2 to 8 are in use, not free, all 9 slots
count as in use, and the next `Add` of an absent name grows the table again,
to 17 entries, instead of filling slot 2. -/
theorem add_growth_slots_not_free :
    run 9 8 empty1 addAB = .ok dirAB ∧ dirAB.tableSize = 9 ∧
    (∀ i, i < 9 → 2 ≤ i → (dirAB.table[i]?).map (fun e => e.inUse) = some true) ∧
    dirAB.table.countP (fun e => e.inUse) = 9 ∧
    (∀ e ∈ dirAB.table, e.inUse = true → nameKey 9 e.name ≠ nameKey 9 (cstr "c")) ∧
    ∃ d', Add 9 8 dirAB (cstr "c") 3 zeroHeap = .ok (true, d') ∧ d'.tableSize = 17 :=
  ⟨by decide, by decide, by decide, by decide, by decide, _, rfl, by decide⟩

/-- When absence and first hits carry over from `d` to `d'`, `FindIndex` and
`Find` return the same on both. -/
theorem find_eq_of_transfer (N : Nat) (d d' : RawDirectory) (other : List Nat) (hwf : d.WF)
    (hwf' : d'.WF) (habs : Absent N d.table other → Absent N d'.table other)
    (hhit : ∀ (j : Nat) (e : DirectoryEntry), FirstHit N d.table other j e →
      FirstHit N d'.table other j e) :
    FindIndex N d' other = FindIndex N d other ∧ Find N d' other = Find N d other := by
  rcases findIndex_cases N d other hwf with ⟨_, ha⟩ | ⟨j, e, hj, _⟩
  · exact ⟨by rw [findIndex_of_absent N d other hwf ha,
        findIndex_of_absent N d' other hwf' (habs ha)],
      by rw [find_of_absent N d other hwf ha, find_of_absent N d' other hwf' (habs ha)]⟩
  · exact ⟨by rw [findIndex_of_firstHit N d other hwf hj,
        findIndex_of_firstHit N d' other hwf' (hhit j e hj)],
      by rw [find_of_firstHit N d other hwf hj, find_of_firstHit N d' other hwf' (hhit j e hj)]⟩

/-- Replacing an entry that `other` does not hit by one that it does not hit
either changes neither `FindIndex(other)` nor `Find(other)`. -/
theorem find_set_of_not_hit (N : Nat) (d : RawDirectory) (other : List Nat) (i : Nat)
    (old x : DirectoryEntry) (hwf : d.WF) (hold : d.table[i]? = some old)
    (h1 : old.hit N other = false) (h2 : x.hit N other = false) :
    FindIndex N { d with table := d.table.set i x } other = FindIndex N d other ∧
    Find N { d with table := d.table.set i x } other = Find N d other := by
  have hwf' : RawDirectory.WF { d with table := d.table.set i x } := by
    simpa [RawDirectory.WF] using hwf
  have hi : i < d.table.length := (List.getElem?_eq_some_iff.mp hold).1
  have hget : ∀ (j : Nat) (e : DirectoryEntry), (d.table.set i x)[j]? = some e →
      e.hit N other = true → d.table[j]? = some e := by
    intro j e hje hh
    by_cases hji : j = i
    · subst hji
      rw [List.getElem?_set_self hi] at hje
      injection hje with hje
      rw [← hje, h2] at hh
      cases hh
    · rw [List.getElem?_set_ne (fun h => hji h.symm)] at hje
      exact hje
  apply find_eq_of_transfer N d _ other hwf hwf'
  · intro ha e he
    cases hh : e.hit N other with
    | false => rfl
    | true =>
      obtain ⟨j, hj, hje⟩ := List.getElem_of_mem he
      have := hget j e (by rw [List.getElem?_eq_getElem hj, hje]) hh
      rw [ha e (mem_of_get this)] at hh
      cases hh
  · intro j e hj
    have hji : j ≠ i := by
      intro h
      subst h
      have hje := hj.1
      rw [hold] at hje
      injection hje with hje
      have hh := hj.2.1
      rw [← hje, h1] at hh
      cases hh
    refine ⟨by show (d.table.set i x)[j]? = some e
               rw [List.getElem?_set_ne (fun h => hji h.symm)]; exact hj.1, hj.2.1, ?_⟩
    intro k e' hk hke'
    cases hh : e'.hit N other with
    | false => rfl
    | true =>
      have := hj.2.2 k e' hk (hget k e' hke' hh)
      rw [this] at hh
      cases hh

/-- A call about a name leaves `FindIndex` and `Find` of every other name
unchanged, provided a growth allocates memory without in-use marks. -/
theorem apply_keeps_other_of_heapFree (N NUM : Nat) (d d' : RawDirectory) (op : Op)
    (other : List Nat) (hwf : d.WF) (hfree : op.heapFree)
    (hdiff : nameKey N op.name ≠ nameKey N other) (h : op.apply N NUM d = .ok d') :
    FindIndex N d' other = FindIndex N d other ∧ Find N d' other = Find N d other := by
  have hfillNo : ∀ (e : DirectoryEntry) (s : Int), (e.fill N op.name s).hit N other = false := by
    intro e s
    cases hh : (e.fill N op.name s).hit N other with
    | false => rfl
    | true =>
      have := ((hit_iff N other _).mp hh).2
      simp only [DirectoryEntry.fill, nameKey_strncpy] at this
      exact absurd this hdiff
  rcases apply_cases N NUM d d' op h with ⟨name, s, heap, b, hop, hadd⟩ | ⟨name, b, hop, hrem⟩
  · have hname : op.name = name := by rw [hop]; rfl
    rw [hname] at hfillNo
    rcases add_cases N NUM d name s heap hwf b d' hadd with ⟨_, hd, _⟩ |
      ⟨_, _, i, e, hf, hd⟩ | ⟨_, _, _, hNUM, hd⟩
    · rw [hd]; exact ⟨rfl, rfl⟩
    · rw [hd]
      exact find_set_of_not_hit N d other i e _ hwf hf.1
        (by simp [DirectoryEntry.hit, hf.2.1]) (hfillNo e s)
    · rw [hd]
      have hheap : ∀ i, (heap i).inUse = false := by
        rw [hop] at hfree
        exact hfree
      have hwf' : RawDirectory.WF
          { table := grownTable N NUM d name s heap, tableSize := d.tableSize + NUM } :=
        grownTable_length N NUM d name s heap hwf
      apply find_eq_of_transfer N d _ other hwf hwf'
      · intro ha e he
        obtain ⟨j, hj, hje⟩ := List.getElem_of_mem he
        have hget : (grownTable N NUM d name s heap)[j]? = some e := by
          rw [List.getElem?_eq_getElem hj, hje]
        have hjlt : j < d.tableSize + NUM := by
          rw [grownTable_length N NUM d name s heap hwf] at hj
          exact hj
        rcases Nat.lt_trichotomy j d.tableSize with hlt | heq | hgt
        · rw [grownTable_old N NUM d name s heap hwf j hlt] at hget
          exact ha e (mem_of_get hget)
        · subst heq
          rw [grownTable_new N NUM d name s heap hwf hNUM] at hget
          injection hget with hget
          rw [← hget]
          exact hfillNo _ s
        · rw [grownTable_rest N NUM d name s heap hwf j hgt hjlt] at hget
          injection hget with hget
          rw [← hget]
          simp [DirectoryEntry.hit, hheap j]
      · intro j e hj
        have hjlt : j < d.tableSize := hwf ▸ hj.lt
        exact hj.of_prefix
          (fun i hi => grownTable_old N NUM d name s heap hwf i (by omega))
  · have hname : op.name = name := by rw [hop]; rfl
    rw [hname] at hdiff
    rcases remove_cases N d name hwf b d' hrem with ⟨_, hd, _⟩ | ⟨_, i, e, hf, hd⟩
    · rw [hd]; exact ⟨rfl, rfl⟩
    · rw [hd]
      have he := (hit_iff N name e).mp hf.2.1
      have h1 : e.hit N other = false := by
        cases hh : e.hit N other with
        | false => rfl
        | true =>
          have := ((hit_iff N other e).mp hh).2
          exact absurd (he.2.symm.trans this) hdiff
      exact find_set_of_not_hit N d other i e _ hwf hf.1 h1 (by simp [DirectoryEntry.hit])

/-- C20, evaluated where the code departs from it: the name `b` is not in the
full directory `full1`; `Add("c", 3)`, a different name, grows the table into
memory that held in-use entries named `b`, and afterwards `FindIndex("b")` is
2 and `Find("b")` is 99, no longer -1. -/
theorem add_growth_changes_other_name :
    full1.WF ∧ nameKey 9 (cstr "c") ≠ nameKey 9 (cstr "b") ∧
    FindIndex 9 full1 (cstr "b") = .ok (-1) ∧ Find 9 full1 (cstr "b") = .ok (-1) ∧
    ∃ d', Add 9 8 full1 (cstr "c") 3 staleHeap = .ok (true, d') ∧
      FindIndex 9 d' (cstr "b") = .ok 2 ∧ Find 9 d' (cstr "b") = .ok 99 :=
  ⟨by decide, by decide, by decide, by decide, _, rfl, by decide, by decide⟩

end Nachos
